import Mathlib

/-!
# Verification of the OpenTDF corpus builder

A shallow embedding, in Lean 4, of the core logic of
`scripts/opentdf_corpus_builder.py`: text normalisation (`clean_text`), the
paragraph chunker (`split_into_chunks`), the retry-governed HTTP fetcher
(`http_get` under its `tenacity` decorator), documentation-URL discovery
(`discover_doc_urls`), the glob-to-regex path exclusion used by the repository
ingestor, and the record/id assembly of `build_corpus`.

Conventions of the embedding:

* Python strings are modelled as `List Char`; Python string literals are
  written as Lean string literals converted with `String.toList`.
* Sizes and counts (chunking parameters, file sizes) are modelled as `Nat`;
  the configuration values are non-negative sizes in all intended uses.
* Calls into external libraries (`requests`, `BeautifulSoup`,
  `xml.etree`, `uritools.urijoin`, the GitHub API) are modelled as oracle
  functions supplied in a `World` structure; `none` models a raised
  exception.  The logic of the repository itself is translated concretely.
* A Python loop without a structural bound (work-queue loops, pagination)
  is modelled with an explicit fuel parameter; exhausted fuel models a
  truncated (non-terminated) run.
* Code paths that raise inside a `try` block are modelled with `Option`
  results, `none` standing for the exception.
-/

namespace OpenTDFCorpus

/-! ## Python string primitives -/

/-- Whitespace characters removed by Python `str.strip()` (ASCII range;
the corpus builder only ever strips ASCII whitespace in practice). -/
def isPySpace (c : Char) : Bool :=
  c == ' ' || c == '\t' || c == '\n' || c == '\r' || c == '\x0b' || c == '\x0c'

/-- Removal of trailing characters satisfying `p` (the right half of Python
`str.strip()` / `str.rstrip()`). -/
def rstripBy (p : Char → Bool) : List Char → List Char
  | [] => []
  | c :: rest =>
    let r := rstripBy p rest
    if r = [] && p c then [] else c :: r

/-- Model of Python `str.strip()` with no arguments. -/
def pyStrip (s : List Char) : List Char :=
  rstripBy isPySpace (s.dropWhile isPySpace)

/-- Model of Python `str.rstrip("/")` (used on the docs base URL). -/
def rstripSlash (s : List Char) : List Char :=
  rstripBy (fun c => c == '/') s

/-- Join a list of paragraphs with a blank line between consecutive
paragraphs: Python `"\n\n".join(buf)` (line 158 / 172). -/
def joinBuf : List (List Char) → List Char
  | [] => []
  | [p] => p
  | p :: rest => p ++ '\n' :: '\n' :: joinBuf rest

/-- State-machine model of `re.split(r'\n{2,}', s)`: split `s` at every
maximal run of two or more newlines.  `acc` is the current paragraph in
reverse; `pending` counts the consecutive newlines just read (saturated
at 2, since only the distinction 0 / 1 / "2 or more" matters). -/
def splitParasGo : List Char → List Char → Nat → List (List Char)
  | [], acc, pending =>
    if 2 ≤ pending then [acc.reverse, []]
    else if pending = 1 then [(acc.reverse) ++ ['\n']]
    else [acc.reverse]
  | c :: rest, acc, pending =>
    if c = '\n' then splitParasGo rest acc (min (pending + 1) 2)
    else if 2 ≤ pending then acc.reverse :: splitParasGo rest [c] 0
    else if pending = 1 then splitParasGo rest (c :: '\n' :: acc) 0
    else splitParasGo rest (c :: acc) 0

/-- Model of `re.split(r'\n{2,}', s)` (line 148). -/
def splitParas (s : List Char) : List (List Char) :=
  splitParasGo s [] 0

/-! ## The chunker: `split_into_chunks` (lines 143-173) -/

/-- One slice pass of the "brutal split" loop
`for i in range(0, len(p), hard_max): chunks.append(p[i:i+hard_max])`
(lines 168-169).  The fuel argument is only a structural-termination
device: with `fuel = p.length` and `hard_max ≥ 1` it never runs out.
`hard_max = 0` (where Python `range` would raise `ValueError`) is guarded
by the caller before this function is reached. -/
def brutalGo (hm : Nat) : Nat → List Char → List (List Char)
  | _, [] => []
  | 0, _ :: _ => []
  | fuel + 1, c :: cs => (c :: cs).take hm :: brutalGo hm fuel ((c :: cs).drop hm)

/-- Fixed-width forced slicing of an oversized paragraph (lines 168-169). -/
def brutalSplit (hm : Nat) (p : List Char) : List (List Char) :=
  brutalGo hm p.length p

/-- The paragraph-accumulation loop of `split_into_chunks` (lines 152-172),
with state `chunks` (emitted so far), `buf` (paragraph buffer) and `cur`
(the running size counter).  Returns `none` exactly where the Python code
would raise `ValueError` (`range` step `hard_max = 0` at a brutal split). -/
def chunkLoop (target hm minc : Nat) :
    List (List Char) → List (List Char) → List (List Char) → Nat →
    Option (List (List Char))
  | [], chunks, buf, _ =>
    some (if buf.isEmpty then chunks else chunks ++ [pyStrip (joinBuf buf)])
  | p :: rest, chunks, buf, cur =>
    if cur + p.length + 2 ≤ target then
      chunkLoop target hm minc rest chunks (buf ++ [p]) (cur + p.length + 2)
    else
      let chunks1 :=
        if buf.isEmpty then chunks
        else
          let ch := pyStrip (joinBuf buf)
          if minc ≤ ch.length ∨ chunks.isEmpty then chunks ++ [ch] else chunks
      if hm < p.length then
        if hm = 0 then none
        else chunkLoop target hm minc rest (chunks1 ++ brutalSplit hm p) [] 0
      else chunkLoop target hm minc rest chunks1 [p] p.length

/-- Model of `split_into_chunks(text, target_chars, hard_max, min_chars)`
(lines 143-173). -/
def split_into_chunks (text : List Char) (target_chars hard_max min_chars : Nat) :
    Option (List (List Char)) :=
  if text.length ≤ hard_max then some [text]
  else chunkLoop target_chars hard_max min_chars (splitParas (pyStrip text)) [] [] 0

/-! ## Text normalisation: `clean_text` (lines 73-78) -/

/-- State machine for `re.sub(r'\r\n?', '\n', s)` (line 75): every carriage
return, optionally followed by one newline, becomes a single newline.
`skipNl` is set just after a carriage return, whose replacement newline has
already been emitted, so that one immediately following newline is
swallowed. -/
def normNewlinesGo : List Char → Bool → List Char
  | [], _ => []
  | c :: rest, skipNl =>
    if c = '\r' then '\n' :: normNewlinesGo rest true
    else if c = '\n' && skipNl then normNewlinesGo rest false
    else c :: normNewlinesGo rest false

/-- Model of `re.sub(r'\r\n?', '\n', s)` (line 75). -/
def normNewlines (s : List Char) : List Char := normNewlinesGo s false

/-- The characters of the `[ \t]` regex class. -/
def isBlank (c : Char) : Bool := c == ' ' || c == '\t'

/-- State machine for `re.sub(r'[ \t]+', ' ', s)` (line 76): each maximal
run of spaces/tabs becomes a single space.  `prevBlank` records whether
the previous character belonged to such a run. -/
def collapseSpacesGo : List Char → Bool → List Char
  | [], _ => []
  | c :: rest, prevBlank =>
    if isBlank c then
      if prevBlank then collapseSpacesGo rest true
      else ' ' :: collapseSpacesGo rest true
    else c :: collapseSpacesGo rest false

/-- Model of `re.sub(r'[ \t]+', ' ', s)` (line 76). -/
def collapseSpaces (s : List Char) : List Char := collapseSpacesGo s false

/-- Emit a pending newline run: runs of three or more newlines collapse
to exactly two. -/
def emitNl (run : Nat) : List Char := List.replicate (min run 2) '\n'

/-- State machine for `re.sub(r'\n{3,}', '\n\n', s)` (line 77); `run`
counts consecutive newlines read but not yet emitted. -/
def collapseNLGo : List Char → Nat → List Char
  | [], run => emitNl run
  | c :: rest, run =>
    if c = '\n' then collapseNLGo rest (run + 1)
    else emitNl run ++ c :: collapseNLGo rest 0

/-- Model of `re.sub(r'\n{3,}', '\n\n', s)` (line 77). -/
def collapseNL (s : List Char) : List Char := collapseNLGo s 0

/-- Model of `clean_text(s)` (lines 73-78): newline normalisation, blank-run
collapse, blank-line-run collapse, then `strip()`. -/
def clean_text (s : List Char) : List Char :=
  pyStrip (collapseNL (collapseSpaces (normNewlines s)))

/-! ## Supporting lemmas for the chunker -/

theorem rstripBy_length_le (p : Char → Bool) :
    ∀ s : List Char, (rstripBy p s).length ≤ s.length := by
  intro s
  induction s with
  | nil => simp [rstripBy]
  | cons c rest ih =>
    simp only [rstripBy]
    split
    · simp
    · simp only [List.length_cons]
      exact Nat.add_le_add_right ih 1

theorem pyStrip_length_le (s : List Char) : (pyStrip s).length ≤ s.length :=
  le_trans (rstripBy_length_le isPySpace _)
    (List.dropWhile_sublist isPySpace).length_le

theorem joinBuf_cons_append (q p : List Char) :
    ∀ buf, joinBuf ((q :: buf) ++ [p]) = joinBuf (q :: buf) ++ '\n' :: '\n' :: p := by
  intro buf
  induction buf generalizing q with
  | nil => rfl
  | cons b bs ih =>
    show q ++ '\n' :: '\n' :: joinBuf ((b :: bs) ++ [p]) = _
    rw [ih b]
    simp [joinBuf]

theorem joinBuf_append_length (buf : List (List Char)) (p : List Char) :
    (joinBuf (buf ++ [p])).length ≤ (joinBuf buf).length + 2 + p.length := by
  cases buf with
  | nil => simp [joinBuf]
  | cons q bs => rw [joinBuf_cons_append]; simp; omega

theorem brutalGo_length_le (hm : Nat) :
    ∀ (fuel : Nat) (p : List Char), ∀ c ∈ brutalGo hm fuel p, c.length ≤ hm := by
  intro fuel
  induction fuel with
  | zero =>
    intro p c hc
    cases p with
    | nil => simp [brutalGo] at hc
    | cons x xs => simp [brutalGo] at hc
  | succ f ih =>
    intro p c hc
    cases p with
    | nil => simp [brutalGo] at hc
    | cons x xs =>
      simp only [brutalGo, List.mem_cons] at hc
      rcases hc with rfl | hc
      · exact List.length_take_le hm (x :: xs)
      · exact ih _ c hc

theorem brutalSplit_length_le (hm : Nat) (p : List Char) :
    ∀ c ∈ brutalSplit hm p, c.length ≤ hm :=
  brutalGo_length_le hm p.length p

/-- Size invariant of the accumulation loop: provided `target ≤ hm`, every
chunk the loop can ever emit has length at most `hm`. -/
theorem chunkLoop_bound (target hm minc : Nat) (ht : target ≤ hm) :
    ∀ (paras chunks buf : List (List Char)) (cur : Nat) (cs : List (List Char)),
      (∀ c ∈ chunks, c.length ≤ hm) →
      (joinBuf buf).length ≤ cur → cur ≤ hm →
      chunkLoop target hm minc paras chunks buf cur = some cs →
      ∀ c ∈ cs, c.length ≤ hm := by
  intro paras
  induction paras with
  | nil =>
    intro chunks buf cur cs hch hbuf hcur hrun c hc
    simp only [chunkLoop, Option.some.injEq] at hrun
    subst hrun
    split at hc
    · exact hch c hc
    · rcases List.mem_append.mp hc with h | h
      · exact hch c h
      · rcases List.mem_singleton.mp h with rfl
        exact le_trans (le_trans (pyStrip_length_le _) hbuf) hcur
  | cons p rest ih =>
    intro chunks buf cur cs hch hbuf hcur hrun
    simp only [chunkLoop] at hrun
    split at hrun
    · -- paragraph fits in the buffer
      rename_i hfit
      refine ih chunks (buf ++ [p]) (cur + p.length + 2) cs hch ?_ ?_ hrun
      · exact le_trans (joinBuf_append_length buf p) (by omega)
      · omega
    · -- flush, then either brutal split or restart the buffer
      rename_i hnofit
      have hch1 : ∀ c ∈ (if buf.isEmpty then chunks else
          if minc ≤ (pyStrip (joinBuf buf)).length ∨ chunks.isEmpty then
            chunks ++ [pyStrip (joinBuf buf)] else chunks), c.length ≤ hm := by
        intro c hc
        split at hc
        · exact hch c hc
        · split at hc
          · rcases List.mem_append.mp hc with h | h
            · exact hch c h
            · rcases List.mem_singleton.mp h with rfl
              exact le_trans (le_trans (pyStrip_length_le _) hbuf) hcur
          · exact hch c hc
      split at hrun
      · -- hm < p.length : brutal split
        split at hrun
        · exact absurd hrun (by simp)
        · refine ih _ [] 0 cs ?_ (by simp [joinBuf]) (Nat.zero_le hm) hrun
          intro c hc
          rcases List.mem_append.mp hc with h | h
          · exact hch1 c h
          · exact brutalSplit_length_le hm p c h
      · -- p.length ≤ hm : restart buffer with p
        rename_i hple
        refine ih _ [p] p.length cs hch1 (le_of_eq rfl) (by omega) hrun

/-! ## Claim theorems about the chunker -/

/-- C1, counterexample: the claim "for every combination of chunking
parameters, every returned chunk's length is at most `hardMaxChars`" fails
at `targetChars = 20`, `hardMaxChars = 3`, `minChars = 0` on a single
10-character paragraph: the whole paragraph is buffered (it fits in
`targetChars`) and emitted as one chunk of length 10 > 3. -/
theorem c1_chunk_bound_counterexample :
    split_into_chunks (List.replicate 10 'a') 20 3 0 = some [List.replicate 10 'a'] ∧
      ¬ (List.replicate 10 'a').length ≤ 3 := by
  constructor
  · decide
  · decide

/-- C1, amended: whenever `targetChars ≤ hardMaxChars` (the intended
configuration regime), every chunk returned by `split_into_chunks` has
length at most `hardMaxChars`. -/
theorem c1_chunk_bound_amended (text : List Char) (target hm minc : Nat)
    (cs : List (List Char)) (ht : target ≤ hm)
    (hrun : split_into_chunks text target hm minc = some cs) :
    ∀ c ∈ cs, c.length ≤ hm := by
  unfold split_into_chunks at hrun
  split at hrun
  · rename_i hlen
    rcases Option.some.injEq _ _ ▸ hrun with rfl
    intro c hc
    rcases List.mem_singleton.mp hc with rfl
    exact hlen
  · exact chunkLoop_bound target hm minc ht _ [] [] 0 cs (by simp)
      (by simp [joinBuf]) (Nat.zero_le hm) hrun

/-- Witness for `c1_chunk_bound_amended` at a concrete input. -/
theorem c1_chunk_bound_amended_witness : ('h' :: 'i' :: []).length ≤ 9 :=
  c1_chunk_bound_amended ('h' :: 'i' :: []) 5 9 0 [('h' :: 'i' :: [])]
    (by decide) (by decide) ('h' :: 'i' :: []) (by simp)

/-- C6: if the text already fits within `hardMaxChars`, `split_into_chunks`
returns exactly one chunk equal to the input text (line 145-146). -/
theorem c6_single_chunk_passthrough (text : List Char) (target hm minc : Nat)
    (h : text.length ≤ hm) :
    split_into_chunks text target hm minc = some [text] := by
  simp [split_into_chunks, h]

/-- Witness for `c6_single_chunk_passthrough` at a concrete input. -/
theorem c6_single_chunk_passthrough_witness :
    split_into_chunks "abc".toList 0 5 0 = some ["abc".toList] :=
  c6_single_chunk_passthrough "abc".toList 0 5 0 (by decide)

theorem rstripBy_of_all_false (p : Char → Bool) :
    ∀ s : List Char, (∀ c ∈ s, p c = false) → rstripBy p s = s := by
  intro s
  induction s with
  | nil => intro _; rfl
  | cons c rest ih =>
    intro h
    have hrest := ih fun d hd => h d (List.mem_cons_of_mem c hd)
    have hc := h c (List.mem_cons_self c rest)
    simp [rstripBy, hrest, hc]

theorem pyStrip_of_all_false (s : List Char) (h : ∀ c ∈ s, isPySpace c = false) :
    pyStrip s = s := by
  unfold pyStrip
  have hd : s.dropWhile isPySpace = s := by
    cases s with
    | nil => rfl
    | cons c rest =>
      rw [List.dropWhile_cons, if_neg (by simp [h c (List.mem_cons_self c rest)])]
  rw [hd, rstripBy_of_all_false _ _ h]

theorem splitParasGo_no_newline :
    ∀ (s acc : List Char), (∀ c ∈ s, c ≠ '\n') →
      splitParasGo s acc 0 = [acc.reverse ++ s] := by
  intro s
  induction s with
  | nil => intro acc _; simp [splitParasGo]
  | cons c rest ih =>
    intro acc h
    have hc : c ≠ '\n' := h c (List.mem_cons_self c rest)
    have hrest : ∀ d ∈ rest, d ≠ '\n' := fun d hd => h d (List.mem_cons_of_mem c hd)
    simp only [splitParasGo, if_neg hc]
    norm_num
    rw [ih (c :: acc) hrest]
    simp

theorem splitParas_no_newline (s : List Char) (h : ∀ c ∈ s, c ≠ '\n') :
    splitParas s = [s] := by
  unfold splitParas
  rw [splitParasGo_no_newline s [] h]
  simp

theorem brutalGo_replicate_step (hm fuel n : Nat) (hn : 0 < n) :
    brutalGo hm (fuel + 1) (List.replicate n 'a') =
      List.replicate (min hm n) 'a' :: brutalGo hm fuel (List.replicate (n - hm) 'a') := by
  obtain ⟨m, rfl⟩ := Nat.exists_eq_succ_of_ne_zero (Nat.pos_iff_ne_zero.mp hn)
  rw [List.replicate_succ]
  show (List.take hm _ :: brutalGo hm fuel (List.drop hm _)) = _
  rw [← List.replicate_succ, List.take_replicate, List.drop_replicate]

/-- The brutal split of a single `3 * hm + 5` character paragraph, for
`5 ≤ hm`: three full-width slices and one final slice of length 5. -/
theorem brutalSplit_replicate (hm : Nat) (h5 : 5 ≤ hm) :
    brutalSplit hm (List.replicate (3 * hm + 5) 'a') =
      [List.replicate hm 'a', List.replicate hm 'a', List.replicate hm 'a',
       List.replicate 5 'a'] := by
  unfold brutalSplit
  rw [List.length_replicate]
  have e1 : 3 * hm + 5 = (3 * hm + 4) + 1 := by omega
  rw [e1, brutalGo_replicate_step hm _ _ (by omega)]
  have e2 : (3 * hm + 4) + 1 - hm = (2 * hm + 4) + 1 := by omega
  rw [e2, brutalGo_replicate_step hm _ _ (by omega)]
  have e3 : (2 * hm + 4) + 1 - hm = (hm + 4) + 1 := by omega
  rw [e3, brutalGo_replicate_step hm _ _ (by omega)]
  have e4 : (hm + 4) + 1 - hm = 5 := by omega
  rw [e4, brutalGo_replicate_step hm _ _ (by omega)]
  have e6 : 5 - hm = 0 := by omega
  rw [e6]
  have m1 : hm ⊓ ((3 * hm + 4) + 1) = hm := by omega
  have m2 : hm ⊓ ((2 * hm + 4) + 1) = hm := by omega
  have m3 : hm ⊓ ((hm + 4) + 1) = hm := by omega
  have m4 : hm ⊓ 5 = 5 := by omega
  rw [m1, m2, m3, m4]
  simp [brutalGo]

/-- C5, counterexample: the claim (read with its implicit quantification
over the remaining chunking parameters) fails at `hardMaxChars = 2`,
`targetChars = 0`, `minChars = 0`: a single paragraph of length
`2 * 3 + 5 = 11` is brutally sliced into 6 pieces, not 4. -/
theorem c5_brutal_split_counterexample :
    (split_into_chunks (List.replicate 11 'a') 0 2 0).map List.length ≠ some 4 := by
  decide

/-- C5, amended: for every `hardMaxChars ≥ 5` and every
`targetChars ≤ 3 * hardMaxChars + 6` (so that the paragraph cannot be
buffered whole), a single paragraph of length `hardMaxChars * 3 + 5`
splits into exactly 4 chunks: three of length `hardMaxChars` and a final
one of length 5. -/
theorem c5_brutal_split_amended (hm target minc : Nat) (h5 : 5 ≤ hm)
    (ht : target ≤ 3 * hm + 6) :
    split_into_chunks (List.replicate (3 * hm + 5) 'a') target hm minc =
      some [List.replicate hm 'a', List.replicate hm 'a', List.replicate hm 'a',
            List.replicate 5 'a'] := by
  have hnospace : ∀ c ∈ List.replicate (3 * hm + 5) 'a', isPySpace c = false := by
    intro c hc
    rcases List.eq_of_mem_replicate hc with rfl
    decide
  have hnonl : ∀ c ∈ List.replicate (3 * hm + 5) 'a', c ≠ '\n' := by
    intro c hc
    rcases List.eq_of_mem_replicate hc with rfl
    decide
  unfold split_into_chunks
  rw [if_neg (by simp; omega)]
  rw [pyStrip_of_all_false _ hnospace, splitParas_no_newline _ hnonl]
  simp only [chunkLoop, List.length_replicate]
  rw [if_neg (by omega)]
  simp only [List.isEmpty_nil, if_true]
  rw [if_pos (by omega), if_neg (by omega)]
  rw [brutalSplit_replicate hm h5]
  simp [chunkLoop]

/-- Witness for `c5_brutal_split_amended` at `hm = 5`, `target = 0`. -/
theorem c5_brutal_split_amended_witness :
    split_into_chunks (List.replicate 20 'a') 0 5 0 =
      some [List.replicate 5 'a', List.replicate 5 'a', List.replicate 5 'a',
            List.replicate 5 'a'] := by
  have h := c5_brutal_split_amended 5 0 0 (by decide) (by decide)
  simpa using h

/-- C2, the failing input for the buffer-drop bug: with
`target_chars = 8`, `hard_max = 10`, `min_chars = 5`, the middle
paragraph `"bb"` of `"aaaaaa\n\nbb\n\ncccccc"` is flushed below
`min_chars` while chunks already exist, and the `else: pass` branch
(lines 161-163, whose comment says "merge small remainder with next
paragraph(s)") silently discards it: no brutal split is involved, yet the
paragraph sequence of the parent text is not reconstructible from the
chunks. -/
theorem c2_buffer_drop_bug :
    split_into_chunks "aaaaaa\n\nbb\n\ncccccc".toList 8 10 5 =
      some ["aaaaaa".toList, "cccccc".toList] ∧
      splitParas (pyStrip "aaaaaa\n\nbb\n\ncccccc".toList) =
        ["aaaaaa".toList, "bb".toList, "cccccc".toList] := by
  constructor
  · decide
  · decide

/-! ## Invariants of normalised text -/

/-- No carriage return occurs in `s`. -/
def noCR (s : List Char) : Prop := ∀ c ∈ s, c ≠ '\r'

/-- No tab occurs in `s`. -/
def noTab (s : List Char) : Prop := ∀ c ∈ s, c ≠ '\t'

/-- No two adjacent blanks (space/tab) occur in `s`. -/
def noDbl : List Char → Prop
  | a :: b :: rest => ¬(isBlank a = true ∧ isBlank b = true) ∧ noDbl (b :: rest)
  | _ => True

/-- No three adjacent newlines occur in `s`. -/
def noTriple : List Char → Prop
  | a :: b :: c :: rest =>
      ¬(a = '\n' ∧ b = '\n' ∧ c = '\n') ∧ noTriple (b :: c :: rest)
  | _ => True

theorem noDbl_nil : noDbl [] := trivial

theorem noDbl_singleton (a : Char) : noDbl [a] := trivial

theorem noDbl_tail : ∀ (a : Char) (l : List Char), noDbl (a :: l) → noDbl l := by
  intro a l h
  cases l with
  | nil => trivial
  | cons b rest =>
    cases rest with
    | nil => trivial
    | cons c r => exact h.2

theorem noDbl_cons_of (a : Char) (l : List Char)
    (hhead : ∀ b, l.head? = some b → ¬(isBlank a = true ∧ isBlank b = true))
    (htail : noDbl l) : noDbl (a :: l) := by
  cases l with
  | nil => trivial
  | cons b rest => exact ⟨hhead b rfl, htail⟩

theorem noDbl_head (a b : Char) (l : List Char) (h : noDbl (a :: b :: l)) :
    ¬(isBlank a = true ∧ isBlank b = true) := h.1

theorem noTriple_tail : ∀ (a : Char) (l : List Char), noTriple (a :: l) → noTriple l := by
  intro a l h
  cases l with
  | nil => trivial
  | cons b rest =>
    cases rest with
    | nil => trivial
    | cons c r =>
      cases r with
      | nil => trivial
      | cons d r' => exact h.2

theorem noTriple_cons_of (a : Char) (l : List Char)
    (hhead : ∀ b c r, l = b :: c :: r → ¬(a = '\n' ∧ b = '\n' ∧ c = '\n'))
    (htail : noTriple l) : noTriple (a :: l) := by
  cases l with
  | nil => trivial
  | cons b rest =>
    cases rest with
    | nil => trivial
    | cons c r => exact ⟨hhead b c r rfl, htail⟩

theorem noTriple_of_append : ∀ (A l : List Char), noTriple (A ++ l) → noTriple l := by
  intro A
  induction A with
  | nil => intro l h; exact h
  | cons a A ih => intro l h; exact ih l (noTriple_tail a _ h)

theorem noDbl_of_append : ∀ (A l : List Char), noDbl (A ++ l) → noDbl l := by
  intro A
  induction A with
  | nil => intro l h; exact h
  | cons a A ih => intro l h; exact ih l (noDbl_tail a _ h)

theorem take_one_shape {α : Type} :
    ∀ (l : List α) (n : Nat) (b : α) (r : List α),
      l.take n = b :: r → ∃ r', l = b :: r' := by
  intro l n b r h
  cases l with
  | nil => simp at h
  | cons x xs =>
    cases n with
    | zero => simp at h
    | succ m =>
      rw [List.take_succ_cons] at h
      injection h with h1 h2
      exact ⟨xs, by rw [h1]⟩

theorem take_two_shape {α : Type} :
    ∀ (l : List α) (n : Nat) (b c : α) (r : List α),
      l.take n = b :: c :: r → ∃ r', l = b :: c :: r' := by
  intro l n b c r h
  cases l with
  | nil => simp at h
  | cons x xs =>
    cases n with
    | zero => simp at h
    | succ m =>
      rw [List.take_succ_cons] at h
      injection h with h1 h2
      obtain ⟨r', hr'⟩ := take_one_shape xs m c r h2
      exact ⟨r', by rw [h1, hr']⟩

theorem noTriple_take : ∀ (l : List Char) (n : Nat), noTriple l → noTriple (l.take n) := by
  intro l
  induction l with
  | nil => intro n _; simp; trivial
  | cons a l ih =>
    intro n h
    cases n with
    | zero => trivial
    | succ m =>
      rw [List.take_succ_cons]
      refine noTriple_cons_of a _ ?_ (ih m (noTriple_tail a l h))
      intro b c r heq
      obtain ⟨r', rfl⟩ := take_two_shape l m b c r heq
      exact h.1

theorem noDbl_take : ∀ (l : List Char) (n : Nat), noDbl l → noDbl (l.take n) := by
  intro l
  induction l with
  | nil => intro n _; simp; trivial
  | cons a l ih =>
    intro n h
    cases n with
    | zero => trivial
    | succ m =>
      rw [List.take_succ_cons]
      refine noDbl_cons_of a _ ?_ (ih m (noDbl_tail a l h))
      intro b heq
      rcases hb : l.take m with _ | ⟨b', r⟩
      · rw [hb] at heq; simp at heq
      · rw [hb] at heq
        simp only [List.head?_cons, Option.some.injEq] at heq
        obtain ⟨r', rfl⟩ := take_one_shape l m b' r hb
        rw [← heq]
        exact h.1

theorem noTriple_drop (l : List Char) (n : Nat) (h : noTriple l) : noTriple (l.drop n) :=
  noTriple_of_append (l.take n) _ (by rw [List.take_append_drop]; exact h)

theorem noDbl_drop (l : List Char) (n : Nat) (h : noDbl l) : noDbl (l.drop n) :=
  noDbl_of_append (l.take n) _ (by rw [List.take_append_drop]; exact h)

/-! ### Stage 1: newline normalisation -/

theorem noCR_normNewlinesGo : ∀ (s : List Char) (b : Bool), noCR (normNewlinesGo s b) := by
  intro s
  induction s with
  | nil => intro b c hc; simp [normNewlinesGo] at hc
  | cons d rest ih =>
    intro b c hc
    simp only [normNewlinesGo] at hc
    split at hc
    · rcases List.mem_cons.mp hc with rfl | hc
      · decide
      · exact ih true c hc
    · split at hc
      · exact ih false c hc
      · rename_i hd1 _
        rcases List.mem_cons.mp hc with rfl | hc
        · intro h; exact hd1 h
        · exact ih false c hc

theorem noCR_normNewlines (s : List Char) : noCR (normNewlines s) :=
  noCR_normNewlinesGo s false

theorem normNewlines_eq_self : ∀ s : List Char, noCR s → normNewlines s = s := by
  intro s
  unfold normNewlines
  induction s with
  | nil => intro _; rfl
  | cons c rest ih =>
    intro h
    have hc : c ≠ '\r' := h c (List.mem_cons_self _ _)
    simp only [normNewlinesGo, if_neg hc, Bool.and_false, Bool.false_eq_true,
      if_false]
    rw [ih fun d hd => h d (List.mem_cons_of_mem c hd)]

/-! ### Stage 2: blank-run collapse -/

theorem mem_collapseSpacesGo :
    ∀ (s : List Char) (b : Bool) (c : Char),
      c ∈ collapseSpacesGo s b → c = ' ' ∨ c ∈ s := by
  intro s
  induction s with
  | nil => intro b c hc; simp [collapseSpacesGo] at hc
  | cons d rest ih =>
    intro b c hc
    simp only [collapseSpacesGo] at hc
    split at hc
    · split at hc
      · rcases ih true c hc with h | h
        · exact Or.inl h
        · exact Or.inr (List.mem_cons_of_mem d h)
      · rcases List.mem_cons.mp hc with rfl | hc
        · exact Or.inl rfl
        · rcases ih true c hc with h | h
          · exact Or.inl h
          · exact Or.inr (List.mem_cons_of_mem d h)
    · rcases List.mem_cons.mp hc with rfl | hc
      · exact Or.inr (List.mem_cons_self _ _)
      · rcases ih false c hc with h | h
        · exact Or.inl h
        · exact Or.inr (List.mem_cons_of_mem d h)

theorem head_collapseSpacesGo_true :
    ∀ (s : List Char) (c : Char),
      (collapseSpacesGo s true).head? = some c → isBlank c = false := by
  intro s
  induction s with
  | nil => intro c hc; simp [collapseSpacesGo] at hc
  | cons d rest ih =>
    intro c hc
    simp only [collapseSpacesGo] at hc
    split at hc
    · exact ih c hc
    · rename_i hd
      simp only [List.head?_cons, Option.some.injEq] at hc
      subst hc
      exact Bool.eq_false_iff.mpr hd

theorem noTab_collapseSpacesGo :
    ∀ (s : List Char) (b : Bool), noTab (collapseSpacesGo s b) := by
  intro s
  induction s with
  | nil => intro b c hc; simp [collapseSpacesGo] at hc
  | cons d rest ih =>
    intro b c hc
    simp only [collapseSpacesGo] at hc
    split at hc
    · split at hc
      · exact ih true c hc
      · rcases List.mem_cons.mp hc with rfl | hc
        · decide
        · exact ih true c hc
    · rename_i hd
      rcases List.mem_cons.mp hc with rfl | hc
      · intro h; subst h; simp [isBlank] at hd
      · exact ih false c hc

theorem noDbl_collapseSpacesGo :
    ∀ (s : List Char) (b : Bool), noDbl (collapseSpacesGo s b) := by
  intro s
  induction s with
  | nil => intro b; trivial
  | cons d rest ih =>
    intro b
    simp only [collapseSpacesGo]
    split
    · split
      · exact ih true
      · refine noDbl_cons_of _ _ ?_ (ih true)
        intro x hx ⟨_, hbx⟩
        rw [head_collapseSpacesGo_true rest x hx] at hbx
        exact Bool.false_ne_true hbx
    · rename_i hd
      refine noDbl_cons_of _ _ ?_ (ih false)
      intro x hx ⟨hbd, _⟩
      exact hd hbd

theorem collapseSpacesGo_eq :
    ∀ s : List Char, noTab s → noDbl s →
      collapseSpacesGo s false = s ∧
        ((∀ hd, s.head? = some hd → isBlank hd = false) →
          collapseSpacesGo s true = s) := by
  intro s
  induction s with
  | nil => intro _ _; exact ⟨rfl, fun _ => rfl⟩
  | cons c rest ih =>
    intro ht hd
    have ihr := ih (fun x hx => ht x (List.mem_cons_of_mem c hx)) (noDbl_tail c rest hd)
    by_cases hb : isBlank c = true
    · have hc : c = ' ' := by
        have := ht c (List.mem_cons_self _ _)
        simp [isBlank] at hb
        rcases hb with h | h
        · exact h
        · exact absurd h this
      have hresttrue : collapseSpacesGo rest true = rest := by
        refine ihr.2 ?_
        intro x hx
        cases rest with
        | nil => simp at hx
        | cons e r =>
          simp only [List.head?_cons, Option.some.injEq] at hx
          rw [← hx]
          cases hbe : isBlank e with
          | false => rfl
          | true => exact absurd ⟨hb, hbe⟩ (noDbl_head c e r hd)
      constructor
      · simp only [collapseSpacesGo]
        rw [if_pos hb, if_neg Bool.false_ne_true, hresttrue, hc]
      · intro hh
        exact absurd (hh c rfl) (by simp [hb])
    · constructor
      · simp [collapseSpacesGo, hb, ihr.1]
      · intro _
        simp [collapseSpacesGo, hb, ihr.1]

/-! ### Stage 3: blank-line-run collapse -/

theorem emitNl_succ (r : Nat) :
    emitNl (r + 1) = '\n' :: List.replicate (min r 1) '\n' := by
  unfold emitNl
  have h : min (r + 1) 2 = min r 1 + 1 := by omega
  rw [h, List.replicate_succ]

theorem mem_collapseNLGo :
    ∀ (s : List Char) (run : Nat) (c : Char),
      c ∈ collapseNLGo s run → c = '\n' ∨ c ∈ s := by
  intro s
  induction s with
  | nil =>
    intro run c hc
    simp only [collapseNLGo] at hc
    exact Or.inl (List.eq_of_mem_replicate hc)
  | cons d rest ih =>
    intro run c hc
    simp only [collapseNLGo] at hc
    split at hc
    · rename_i hd
      rcases ih (run + 1) c hc with h | h
      · exact Or.inl h
      · exact Or.inr (List.mem_cons_of_mem d h)
    · rcases List.mem_append.mp hc with h | h
      · exact Or.inl (List.eq_of_mem_replicate h)
      · rcases List.mem_cons.mp h with rfl | h
        · exact Or.inr (List.mem_cons_self _ _)
        · rcases ih 0 c h with h' | h'
          · exact Or.inl h'
          · exact Or.inr (List.mem_cons_of_mem d h')

theorem head_collapseNLGo :
    ∀ (s : List Char) (run : Nat) (c : Char),
      (collapseNLGo s run).head? = some c →
        c = '\n' ∨ (run = 0 ∧ s.head? = some c) := by
  intro s
  induction s with
  | nil =>
    intro run c hc
    cases run with
    | zero => simp [collapseNLGo, emitNl] at hc
    | succ r =>
      simp only [collapseNLGo] at hc
      rw [emitNl_succ] at hc
      simp only [List.head?_cons, Option.some.injEq] at hc
      exact Or.inl hc.symm
  | cons d rest ih =>
    intro run c hc
    simp only [collapseNLGo] at hc
    split at hc
    · rcases ih (run + 1) c hc with h | ⟨h, _⟩
      · exact Or.inl h
      · exact absurd h (Nat.succ_ne_zero run)
    · cases run with
      | zero =>
        simp only [emitNl, Nat.min_self, List.replicate, List.nil_append,
          List.head?_cons, Option.some.injEq] at hc
        exact Or.inr ⟨rfl, by rw [List.head?_cons, hc]⟩
      | succ r =>
        rw [emitNl_succ] at hc
        simp only [List.cons_append, List.head?_cons, Option.some.injEq] at hc
        exact Or.inl hc.symm

theorem noDbl_replicateNl_append :
    ∀ (k : Nat) (l : List Char), noDbl l → noDbl (List.replicate k '\n' ++ l) := by
  intro k
  induction k with
  | zero => intro l h; exact h
  | succ m ih =>
    intro l h
    rw [List.replicate_succ, List.cons_append]
    refine noDbl_cons_of _ _ ?_ (ih l h)
    intro x _ ⟨hb, _⟩
    simp [isBlank] at hb

theorem noDbl_collapseNLGo :
    ∀ (s : List Char) (run : Nat), noDbl s → noDbl (collapseNLGo s run) := by
  intro s
  induction s with
  | nil =>
    intro run _
    simp only [collapseNLGo, emitNl]
    have := noDbl_replicateNl_append (min run 2) [] trivial
    simpa using this
  | cons d rest ih =>
    intro run h
    simp only [collapseNLGo]
    split
    · exact ih (run + 1) (noDbl_tail d rest h)
    · rename_i hd
      refine noDbl_replicateNl_append _ _ ?_
      refine noDbl_cons_of _ _ ?_ (ih 0 (noDbl_tail d rest h))
      intro x hx hpair
      rcases head_collapseNLGo rest 0 x hx with rfl | ⟨_, hh⟩
      · simp [isBlank] at hpair
      · cases rest with
        | nil => simp at hh
        | cons e r =>
          simp only [List.head?_cons, Option.some.injEq] at hh
          rw [← hh] at hpair
          exact noDbl_head d e r h hpair

theorem noTriple_short : ∀ l : List Char, l.length ≤ 2 → noTriple l := by
  intro l h
  match l with
  | [] => trivial
  | [_] => trivial
  | [_, _] => trivial
  | _ :: _ :: _ :: _ => simp at h

theorem noTriple_cons_of_ne (d : Char) (T : List Char) (hd : d ≠ '\n')
    (h : noTriple T) : noTriple (d :: T) := by
  refine noTriple_cons_of d T ?_ h
  intro b c r _ ⟨hdn, _⟩
  exact hd hdn

theorem noTriple_emit_cons (run : Nat) (d : Char) (T : List Char)
    (hd : d ≠ '\n') (h : noTriple T) : noTriple (emitNl run ++ d :: T) := by
  have hbase : noTriple (d :: T) := noTriple_cons_of_ne d T hd h
  have h1 : noTriple ('\n' :: d :: T) := by
    refine noTriple_cons_of _ _ ?_ hbase
    intro b c r heq ⟨_, hbn, _⟩
    injection heq with hb _
    exact hd (hb.trans hbn)
  have h2 : noTriple ('\n' :: '\n' :: d :: T) := by
    refine noTriple_cons_of _ _ ?_ h1
    intro b c r heq ⟨_, _, hcn⟩
    injection heq with _ h2'
    injection h2' with hdc _
    exact hd (hdc.trans hcn)
  unfold emitNl
  have : min run 2 = 0 ∨ min run 2 = 1 ∨ min run 2 = 2 := by omega
  rcases this with h0 | h0 | h0 <;> rw [h0]
  · exact hbase
  · exact h1
  · exact h2

theorem noTriple_collapseNLGo :
    ∀ (s : List Char) (run : Nat), noTriple (collapseNLGo s run) := by
  intro s
  induction s with
  | nil =>
    intro run
    refine noTriple_short _ ?_
    simp only [collapseNLGo, emitNl, List.length_replicate]
    omega
  | cons d rest ih =>
    intro run
    simp only [collapseNLGo]
    split
    · exact ih (run + 1)
    · rename_i hd
      exact noTriple_emit_cons run d _ hd (ih 0)

theorem collapseNLGo_eq_self :
    ∀ (s : List Char) (run : Nat), run ≤ 2 →
      noTriple (List.replicate run '\n' ++ s) →
      collapseNLGo s run = List.replicate run '\n' ++ s := by
  intro s
  induction s with
  | nil =>
    intro run hle _
    simp only [collapseNLGo, emitNl, List.append_nil]
    have : min run 2 = run := by omega
    rw [this]
  | cons d rest ih =>
    intro run hle h
    simp only [collapseNLGo]
    split
    · rename_i hd
      subst hd
      have hshift : List.replicate run '\n' ++ '\n' :: rest =
          List.replicate (run + 1) '\n' ++ rest := by
        rw [List.replicate_succ']
        simp
      have hlt : run ≤ 1 := by
        by_contra hgt
        have hrun2 : run = 2 := by omega
        subst hrun2
        have h3 : noTriple ('\n' :: '\n' :: '\n' :: rest) := by
          simpa [List.replicate] using h
        exact h3.1 ⟨rfl, rfl, rfl⟩
      rw [hshift]
      exact ih (run + 1) (by omega) (hshift ▸ h)
    · rename_i hd
      have hrest : noTriple rest :=
        noTriple_tail d rest (noTriple_of_append _ _ h)
      have hrec := ih 0 (Nat.zero_le 2) (by simpa using hrest)
      simp only [List.replicate, List.nil_append] at hrec
      unfold emitNl
      have hmin : min run 2 = run := by omega
      rw [hmin, hrec]

/-! ### Stage 4: `strip()` -/

theorem rstripBy_exists_take (p : Char → Bool) :
    ∀ s : List Char, ∃ n, rstripBy p s = s.take n := by
  intro s
  induction s with
  | nil => exact ⟨0, rfl⟩
  | cons c rest ih =>
    obtain ⟨n, hn⟩ := ih
    simp only [rstripBy]
    split
    · exact ⟨0, rfl⟩
    · exact ⟨n + 1, by rw [hn, List.take_succ_cons]⟩

theorem dropWhile_exists_drop (p : Char → Bool) :
    ∀ s : List Char, ∃ n, s.dropWhile p = s.drop n := by
  intro s
  induction s with
  | nil => exact ⟨0, rfl⟩
  | cons c rest ih =>
    obtain ⟨n, hn⟩ := ih
    rw [List.dropWhile_cons]
    split
    · exact ⟨n + 1, by rw [hn, List.drop_succ_cons]⟩
    · exact ⟨0, rfl⟩

theorem rstripBy_idem (p : Char → Bool) :
    ∀ s : List Char, rstripBy p (rstripBy p s) = rstripBy p s := by
  intro s
  induction s with
  | nil => rfl
  | cons c rest ih =>
    simp only [rstripBy]
    split
    · rfl
    · rename_i hcond
      simp only [rstripBy, ih]
      rw [if_neg hcond]

theorem head?_dropWhile_isFalse (p : Char → Bool) :
    ∀ (s : List Char) (c : Char), (s.dropWhile p).head? = some c → p c = false := by
  intro s
  induction s with
  | nil => intro c hc; simp at hc
  | cons d rest ih =>
    intro c hc
    rw [List.dropWhile_cons] at hc
    split at hc
    · exact ih c hc
    · rename_i hd
      simp only [List.head?_cons, Option.some.injEq] at hc
      rw [← hc]
      exact Bool.eq_false_iff.mpr hd

theorem head?_take_some {α : Type} (l : List α) (n : Nat) (c : α)
    (h : (l.take n).head? = some c) : l.head? = some c := by
  rcases hb : l.take n with _ | ⟨b, r⟩
  · rw [hb] at h; simp at h
  · rw [hb] at h
    simp only [List.head?_cons, Option.some.injEq] at h
    obtain ⟨r', rfl⟩ := take_one_shape l n b r hb
    rw [List.head?_cons, h]

theorem pyStrip_idem (s : List Char) : pyStrip (pyStrip s) = pyStrip s := by
  show pyStrip (rstripBy isPySpace (s.dropWhile isPySpace)) = _
  have hdw : (rstripBy isPySpace (s.dropWhile isPySpace)).dropWhile isPySpace =
      rstripBy isPySpace (s.dropWhile isPySpace) := by
    rcases hX : rstripBy isPySpace (s.dropWhile isPySpace) with _ | ⟨c, xs⟩
    · rfl
    · rw [List.dropWhile_cons]
      have hc : isPySpace c = false := by
        obtain ⟨n, hn⟩ := rstripBy_exists_take isPySpace (s.dropWhile isPySpace)
        rw [hn] at hX
        exact head?_dropWhile_isFalse isPySpace s c
          (head?_take_some _ n c (by rw [hX, List.head?_cons]))
      rw [if_neg (by simp [hc])]
  unfold pyStrip
  rw [hdw, rstripBy_idem]

theorem mem_pyStrip (s : List Char) (c : Char) (h : c ∈ pyStrip s) : c ∈ s := by
  obtain ⟨n, hn⟩ := rstripBy_exists_take isPySpace (s.dropWhile isPySpace)
  unfold pyStrip at h
  rw [hn] at h
  exact (List.dropWhile_sublist isPySpace).mem ((List.take_sublist _ _).mem h)

theorem noDbl_pyStrip (s : List Char) (h : noDbl s) : noDbl (pyStrip s) := by
  obtain ⟨n, hn⟩ := rstripBy_exists_take isPySpace (s.dropWhile isPySpace)
  obtain ⟨m, hm⟩ := dropWhile_exists_drop isPySpace s
  unfold pyStrip
  rw [hn, hm]
  exact noDbl_take _ _ (noDbl_drop _ _ h)

theorem noTriple_pyStrip (s : List Char) (h : noTriple s) : noTriple (pyStrip s) := by
  obtain ⟨n, hn⟩ := rstripBy_exists_take isPySpace (s.dropWhile isPySpace)
  obtain ⟨m, hm⟩ := dropWhile_exists_drop isPySpace s
  unfold pyStrip
  rw [hn, hm]
  exact noTriple_take _ _ (noTriple_drop _ _ h)

/-! ### Idempotence of `clean_text` -/

theorem noCR_clean_text (s : List Char) : noCR (clean_text s) := by
  intro c hc
  have h1 := mem_pyStrip _ _ hc
  rcases mem_collapseNLGo _ _ _ h1 with rfl | h2
  · decide
  · rcases mem_collapseSpacesGo _ _ _ h2 with rfl | h3
    · decide
    · exact noCR_normNewlines s c h3

theorem noTab_clean_text (s : List Char) : noTab (clean_text s) := by
  intro c hc
  have h1 := mem_pyStrip _ _ hc
  rcases mem_collapseNLGo _ _ _ h1 with rfl | h2
  · decide
  · exact noTab_collapseSpacesGo _ _ c h2

theorem noDbl_clean_text (s : List Char) : noDbl (clean_text s) :=
  noDbl_pyStrip _ (noDbl_collapseNLGo _ _ (noDbl_collapseSpacesGo _ _))

theorem noTriple_clean_text (s : List Char) : noTriple (clean_text s) :=
  noTriple_pyStrip _ (noTriple_collapseNLGo _ _)

/-- C9: the text normalisation routine `clean_text` (lines 73-78) is
idempotent: applying it twice produces the same result as applying it
once. -/
theorem c9_clean_text_idempotent (s : List Char) :
    clean_text (clean_text s) = clean_text s := by
  have hCR := noCR_clean_text s
  have hTab := noTab_clean_text s
  have hDbl := noDbl_clean_text s
  have hTriple := noTriple_clean_text s
  have hstrip : pyStrip (clean_text s) = clean_text s :=
    pyStrip_idem (collapseNL (collapseSpaces (normNewlines s)))
  show pyStrip (collapseNL (collapseSpaces (normNewlines (clean_text s)))) = clean_text s
  rw [normNewlines_eq_self _ hCR,
    show collapseSpaces (clean_text s) = clean_text s from
      (collapseSpacesGo_eq _ hTab hDbl).1,
    show collapseNL (clean_text s) = clean_text s by
      have hnl := collapseNLGo_eq_self (clean_text s) 0 (by omega) (by simpa using hTriple)
      simpa [collapseNL] using hnl,
    hstrip]

/-! ## Glob-to-regex path exclusion (lines 452-458)

The repository ingestor builds
`rx = re.escape(pat).replace(r"\*\*", ".*").replace(r"\*", "[^/]*")`
and skips a path when `re.fullmatch(rx, path)` succeeds.  In the escaped
pattern every input `*` appears as the two-character unit `\*` and every
other input character as a literal atom (its escaping backslash never forms
a `\*` unit), so the two textual replacements turn each left-to-right pair
of adjacent input stars into the regex atom `.*`, each remaining star into
`[^/]*`, and leave every other character matching itself literally. -/

/-- A regex atom of the translated pattern: `.*`, `[^/]*`, or a literal. -/
inductive GTok where
  | star2 : GTok
  | star1 : GTok
  | lit : Char → GTok
deriving DecidableEq

/-- Atom sequence of the regex built at line 455, computed from the raw
glob pattern (see the section comment for why the escape/replace pipeline
yields exactly this tokenisation). -/
def globTokens : List Char → List GTok
  | [] => []
  | c :: rest =>
    if c = '*' then
      match rest with
      | d :: rest2 =>
        if d = '*' then .star2 :: globTokens rest2
        else .star1 :: globTokens (d :: rest2)
      | [] => [.star1]
    else .lit c :: globTokens rest

/-- Model of `re.fullmatch` over the atom sequence: a literal consumes one
equal character, `[^/]*` consumes any run of non-separator characters
(newlines included, since the negated class admits them), `.*` consumes
any run of non-newline characters — `re.fullmatch` at line 458 is called
without `re.DOTALL`, so `.` never matches a newline — and the whole input
must be consumed. -/
def globMatch : List GTok → List Char → Bool
  | [], [] => true
  | [], _ :: _ => false
  | .lit _ :: _, [] => false
  | .lit c :: ts, x :: xs => c == x && globMatch ts xs
  | .star1 :: ts, s =>
    globMatch ts s ||
      (match s with
       | [] => false
       | x :: xs => !(x == '/') && globMatch (.star1 :: ts) xs)
  | .star2 :: ts, s =>
    globMatch ts s ||
      (match s with
       | [] => false
       | x :: xs => !(x == '\n') && globMatch (.star2 :: ts) xs)
termination_by ts s => (ts.length, s.length)

/-- Declarative matching semantics of the atom sequence. -/
inductive TokMatch : List GTok → List Char → Prop where
  | nil : TokMatch [] []
  | lit (c : Char) (ts : List GTok) (s : List Char) :
      TokMatch ts s → TokMatch (.lit c :: ts) (c :: s)
  | star1 (w : List Char) (ts : List GTok) (s : List Char) :
      (∀ c ∈ w, c ≠ '/') → TokMatch ts s → TokMatch (.star1 :: ts) (w ++ s)
  | star2 (w : List Char) (ts : List GTok) (s : List Char) :
      (∀ c ∈ w, c ≠ '\n') → TokMatch ts s → TokMatch (.star2 :: ts) (w ++ s)

/-- Modelled from the spec: the glob semantics stated by the claim —
`**` matches any character sequence including path separators, `*` matches
any character sequence excluding path separators, every other pattern
character matches itself literally, and the whole path must be matched. -/
inductive GlobSpec : List Char → List Char → Prop where
  | nil : GlobSpec [] []
  | lit (c : Char) (p s : List Char) :
      c ≠ '*' → GlobSpec p s → GlobSpec (c :: p) (c :: s)
  | star2 (w : List Char) (p s : List Char) :
      GlobSpec p s → GlobSpec ('*' :: '*' :: p) (w ++ s)
  | star1 (w : List Char) (p s : List Char) :
      (∀ c ∈ w, c ≠ '/') → GlobSpec p s → GlobSpec ('*' :: p) (w ++ s)

/-- The corrected declarative semantics the code actually implements: each
left-to-right pair of adjacent stars acts as `.*`, which without `DOTALL`
matches any sequence of non-newline characters; a star not paired with a
following star acts as `[^/]*`, matching any sequence without a path
separator (newlines included); other characters match literally, over the
whole path.  The side condition of `star1` mirrors the left-to-right
pairing of the textual replacement at line 455: a single-star step is only
available when the next pattern character is not another star. -/
inductive GlobSpecNL : List Char → List Char → Prop where
  | nil : GlobSpecNL [] []
  | lit (c : Char) (p s : List Char) :
      c ≠ '*' → GlobSpecNL p s → GlobSpecNL (c :: p) (c :: s)
  | star2 (w : List Char) (p s : List Char) :
      (∀ c ∈ w, c ≠ '\n') → GlobSpecNL p s →
        GlobSpecNL ('*' :: '*' :: p) (w ++ s)
  | star1 (w : List Char) (p s : List Char) :
      (∀ c ∈ w, c ≠ '/') → (∀ p2, p ≠ '*' :: p2) → GlobSpecNL p s →
        GlobSpecNL ('*' :: p) (w ++ s)

theorem globTokens_lit (c : Char) (p : List Char) (hc : c ≠ '*') :
    globTokens (c :: p) = .lit c :: globTokens p := by
  cases p with
  | nil => rw [globTokens.eq_3, if_neg hc]
  | cons d rest => rw [globTokens.eq_2, if_neg hc]

theorem globTokens_star2 (p : List Char) :
    globTokens ('*' :: '*' :: p) = .star2 :: globTokens p := by
  rw [globTokens.eq_2, if_pos rfl, if_pos rfl]

theorem globTokens_star1 (c : Char) (p : List Char) (hc : c ≠ '*') :
    globTokens ('*' :: c :: p) = .star1 :: globTokens (c :: p) := by
  rw [globTokens.eq_2, if_pos rfl, if_neg hc]

theorem globTokens_star_nil : globTokens ['*'] = [.star1] := by
  rw [globTokens.eq_3, if_pos rfl]

theorem tokMatch_nil_inv (s : List Char) (h : TokMatch [] s) : s = [] := by
  cases h; rfl

theorem tokMatch_lit_inv (c : Char) (ts : List GTok) (s : List Char)
    (h : TokMatch (.lit c :: ts) s) : ∃ s', s = c :: s' ∧ TokMatch ts s' := by
  cases h with
  | lit _ _ s' hs => exact ⟨s', rfl, hs⟩

theorem tokMatch_star1_inv (ts : List GTok) (s : List Char)
    (h : TokMatch (.star1 :: ts) s) :
    ∃ w s', s = w ++ s' ∧ (∀ c ∈ w, c ≠ '/') ∧ TokMatch ts s' := by
  cases h with
  | star1 w _ s' hw hs => exact ⟨w, s', rfl, hw, hs⟩

theorem tokMatch_star2_inv (ts : List GTok) (s : List Char)
    (h : TokMatch (.star2 :: ts) s) :
    ∃ w s', s = w ++ s' ∧ (∀ c ∈ w, c ≠ '\n') ∧ TokMatch ts s' := by
  cases h with
  | star2 w _ s' hw hs => exact ⟨w, s', rfl, hw, hs⟩

theorem globMatch_imp_tokMatch :
    ∀ (n : Nat) (ts : List GTok) (s : List Char), ts.length + s.length ≤ n →
      globMatch ts s = true → TokMatch ts s := by
  intro n
  induction n with
  | zero =>
    intro ts s hlen h
    cases ts with
    | nil =>
      cases s with
      | nil => exact TokMatch.nil
      | cons x xs => simp at hlen
    | cons t ts => simp at hlen
  | succ m ih =>
    intro ts s hlen h
    cases ts with
    | nil =>
      cases s with
      | nil => exact TokMatch.nil
      | cons x xs => simp [globMatch] at h
    | cons t ts =>
      cases t with
      | lit c =>
        cases s with
        | nil => simp [globMatch] at h
        | cons x xs =>
          simp only [globMatch, Bool.and_eq_true, beq_iff_eq] at h
          obtain ⟨rfl, h2⟩ := h
          exact TokMatch.lit _ _ _ (ih ts xs (by simp at hlen ⊢; omega) h2)
      | star1 =>
        cases s with
        | nil =>
          rw [globMatch.eq_5] at h
          simp only [Bool.or_false] at h
          have hm := ih ts [] (by simp at hlen ⊢; omega) h
          have := TokMatch.star1 [] ts [] (by simp) hm
          simpa using this
        | cons x xs =>
          rw [globMatch.eq_6] at h
          rw [Bool.or_eq_true] at h
          rcases h with h | h
          · have hm := ih ts (x :: xs) (by simp at hlen ⊢; omega) h
            have := TokMatch.star1 [] ts (x :: xs) (by simp) hm
            simpa using this
          · rw [Bool.and_eq_true] at h
            obtain ⟨hx, h2⟩ := h
            have hts := ih (.star1 :: ts) xs (by simp at hlen ⊢; omega) h2
            obtain ⟨w, s', rfl, hw, hm⟩ := tokMatch_star1_inv ts xs hts
            have hx' : x ≠ '/' := by
              intro hEq; subst hEq; simp at hx
            have := TokMatch.star1 (x :: w) ts s'
              (by intro c hc
                  rcases List.mem_cons.mp hc with rfl | hc
                  · exact hx'
                  · exact hw c hc) hm
            simpa using this
      | star2 =>
        cases s with
        | nil =>
          rw [globMatch.eq_7] at h
          simp only [Bool.or_false] at h
          have hm := ih ts [] (by simp at hlen ⊢; omega) h
          have := TokMatch.star2 [] ts [] (by simp) hm
          simpa using this
        | cons x xs =>
          rw [globMatch.eq_8] at h
          rw [Bool.or_eq_true] at h
          rcases h with h | h
          · have hm := ih ts (x :: xs) (by simp at hlen ⊢; omega) h
            have := TokMatch.star2 [] ts (x :: xs) (by simp) hm
            simpa using this
          · rw [Bool.and_eq_true] at h
            obtain ⟨hx, h2⟩ := h
            have hts := ih (.star2 :: ts) xs (by simp at hlen ⊢; omega) h2
            obtain ⟨w, s', rfl, hw, hm⟩ := tokMatch_star2_inv ts xs hts
            have hx' : x ≠ '\n' := by
              intro hEq; subst hEq; simp at hx
            have := TokMatch.star2 (x :: w) ts s'
              (by intro c hc
                  rcases List.mem_cons.mp hc with rfl | hc
                  · exact hx'
                  · exact hw c hc) hm
            simpa using this

theorem globMatch_star1_append (w : List Char) (ts : List GTok) (s : List Char)
    (hw : ∀ c ∈ w, c ≠ '/') (h : globMatch ts s = true) :
    globMatch (.star1 :: ts) (w ++ s) = true := by
  induction w with
  | nil =>
    simp only [List.nil_append]
    cases s with
    | nil => rw [globMatch.eq_5]; simp [h]
    | cons x xs => rw [globMatch.eq_6]; simp [h]
  | cons x w' ihw =>
    have hx : x ≠ '/' := hw x (List.mem_cons_self _ _)
    have hrest := ihw fun c hc => hw c (List.mem_cons_of_mem x hc)
    simp only [List.cons_append]
    rw [globMatch.eq_6]
    simp [hx, hrest]

theorem globMatch_star2_append (w : List Char) (ts : List GTok) (s : List Char)
    (hw : ∀ c ∈ w, c ≠ '\n') (h : globMatch ts s = true) :
    globMatch (.star2 :: ts) (w ++ s) = true := by
  induction w with
  | nil =>
    simp only [List.nil_append]
    cases s with
    | nil => rw [globMatch.eq_7]; simp [h]
    | cons x xs => rw [globMatch.eq_8]; simp [h]
  | cons x w' ihw =>
    have hx : x ≠ '\n' := hw x (List.mem_cons_self _ _)
    have hrest := ihw fun c hc => hw c (List.mem_cons_of_mem x hc)
    simp only [List.cons_append]
    rw [globMatch.eq_8]
    simp [hx, hrest]

theorem tokMatch_imp_globMatch (ts : List GTok) (s : List Char)
    (h : TokMatch ts s) : globMatch ts s = true := by
  induction h with
  | nil => rw [globMatch.eq_1]
  | lit c ts s hm ih => rw [globMatch.eq_4]; simp [ih]
  | star1 w ts s hw hm ih => exact globMatch_star1_append w ts s hw ih
  | star2 w ts s hw hm ih => exact globMatch_star2_append w ts s hw ih

theorem globSpecNL_imp_tokMatch (p : List Char) (s : List Char)
    (h : GlobSpecNL p s) : TokMatch (globTokens p) s := by
  induction h with
  | nil => exact TokMatch.nil
  | lit c p s hc hsub ih =>
    rw [globTokens_lit c p hc]
    exact TokMatch.lit _ _ _ ih
  | star2 w p s hw hsub ih =>
    rw [globTokens_star2]
    exact TokMatch.star2 _ _ _ hw ih
  | star1 w p s hw hhead hsub ih =>
    cases p with
    | nil =>
      obtain rfl := tokMatch_nil_inv s ih
      rw [globTokens_star_nil]
      have := TokMatch.star1 w [] [] hw TokMatch.nil
      simpa using this
    | cons c p' =>
      by_cases hc : c = '*'
      · subst hc
        exact absurd rfl (hhead p')
      · rw [globTokens_star1 c p' hc]
        exact TokMatch.star1 w _ _ hw ih

theorem tokMatch_imp_globSpecNL :
    ∀ (n : Nat) (p : List Char), p.length ≤ n →
      ∀ s, TokMatch (globTokens p) s → GlobSpecNL p s := by
  intro n
  induction n with
  | zero =>
    intro p hp s h
    have hnil : p = [] := List.length_eq_zero.mp (Nat.le_zero.mp hp)
    subst hnil
    obtain rfl := tokMatch_nil_inv s h
    exact GlobSpecNL.nil
  | succ m ih =>
    intro p hp s h
    cases p with
    | nil =>
      obtain rfl := tokMatch_nil_inv s h
      exact GlobSpecNL.nil
    | cons c p' =>
      by_cases hc : c = '*'
      · subst hc
        cases p' with
        | nil =>
          rw [globTokens_star_nil] at h
          obtain ⟨w, s', rfl, hw, hm⟩ := tokMatch_star1_inv [] s h
          obtain rfl := tokMatch_nil_inv s' hm
          exact GlobSpecNL.star1 w [] [] hw (fun p2 h2 => List.noConfusion h2)
            GlobSpecNL.nil
        | cons d p'' =>
          by_cases hd : d = '*'
          · subst hd
            rw [globTokens_star2] at h
            obtain ⟨w, s', rfl, hw, hm⟩ := tokMatch_star2_inv _ _ h
            exact GlobSpecNL.star2 w p'' s' hw
              (ih p'' (by simp at hp; omega) s' hm)
          · rw [globTokens_star1 d p'' hd] at h
            obtain ⟨w, s', rfl, hw, hm⟩ := tokMatch_star1_inv _ _ h
            exact GlobSpecNL.star1 w (d :: p'') s' hw
              (fun p2 h2 => hd (List.cons.inj h2).1)
              (ih (d :: p'') (by simp at hp ⊢; omega) s' hm)
      · rw [globTokens_lit c p' hc] at h
        obtain ⟨s', rfl, hm⟩ := tokMatch_lit_inv c _ s h
        exact GlobSpecNL.lit c p' s' hc (ih p' (by simp at hp; omega) s' hm)

/-- C8 counterexample: the claimed semantics — `**` matches any character
sequence — does not hold for the program.  The pattern `**` translates to
the regex `.*`, and `re.fullmatch` at line 458 runs without `re.DOTALL`,
so `.` never matches a newline: the path consisting of `a`, a newline and
`b` satisfies the claimed semantics (`GlobSpec`, modelled from the spec)
but the code's matcher rejects it. -/
theorem c8_glob_fullmatch_counterexample :
    globMatch (globTokens ['*', '*']) ['a', '\n', 'b'] = false ∧
      GlobSpec ['*', '*'] ['a', '\n', 'b'] := by
  constructor
  · have h0 : globTokens ['*', '*'] = [GTok.star2] := rfl
    rw [h0]
    have h1 : globMatch [GTok.star2] ['\n', 'b'] = false := by
      rw [globMatch.eq_8, globMatch.eq_2]
      simp
    rw [globMatch.eq_8, globMatch.eq_2, h1]
    simp
  · have := GlobSpec.star2 ['a', '\n', 'b'] [] [] GlobSpec.nil
    simpa using this

/-- C8 (amended): the repository ingestor's glob matcher (the regex built
and full-matched at lines 452-458, modelled by `globMatch` over
`globTokens`) excludes a path exactly when the whole path matches the
pattern under the corrected semantics: `**` matches any sequence of
non-newline characters (its `.*` is matched without `DOTALL`), `*` matches
any sequence excluding path separators (newlines included, via `[^/]*`),
every other character matches itself literally, and a full match (not a
substring search) is required. -/
theorem c8_glob_fullmatch_amended (pat path : List Char) :
    globMatch (globTokens pat) path = true ↔ GlobSpecNL pat path := by
  constructor
  · intro h
    exact tokMatch_imp_globSpecNL pat.length pat le_rfl path
      (globMatch_imp_tokMatch ((globTokens pat).length + path.length) _ _ le_rfl h)
  · intro h
    exact tokMatch_imp_globMatch _ _ (globSpecNL_imp_tokMatch pat path h)

/-! ## HTTP fetcher with retries (lines 179-190)

`http_get` is decorated with
`@retry(stop=stop_after_attempt(5), wait=wait_exponential(multiplier=1, min=1, max=10), retry=retry_if_exception_type(HttpError))`.
The body raises `HttpError` for any response status >= 400; network-level
errors (`requests` exceptions, e.g. connection failures or a malformed
URL) escape the body as exceptions of other types, which
`retry_if_exception_type(HttpError)` does not retry. -/

/-- Outcome of one underlying `requests.get` call: a response with a status
code, a network-level exception, or any other exception. -/
inductive FetchOutcome where
  | resp : Nat → FetchOutcome
  | netExc : FetchOutcome
  | otherExc : FetchOutcome
deriving DecidableEq

/-- An exception escaping one attempt of the body of `http_get`:
`HttpError` (raised at line 189), a network-level exception, or any other
exception. -/
inductive FetchErr where
  | httpError : Nat → FetchErr
  | netError : FetchErr
  | otherError : FetchErr
deriving DecidableEq

/-- One attempt of the body of `http_get` (lines 183-190), against a
transport oracle giving the outcome of the k-th `requests.get` call. -/
def httpAttempt (transport : Nat → FetchOutcome) (k : Nat) : Except FetchErr Nat :=
  match transport k with
  | .resp status => if 400 ≤ status then .error (.httpError status) else .ok status
  | .netExc => .error .netError
  | .otherExc => .error .otherError

/-- The predicate applied by `retry_if_exception_type(HttpError)`. -/
def isHttpErr : FetchErr → Bool
  | .httpError _ => true
  | _ => false

/-- `wait_exponential(multiplier=1, min=1, max=10)`: the wait slept after
the k-th failed attempt. -/
def waitExp (k : Nat) : Nat := max 1 (min (2 ^ (k - 1)) 10)

/-- How a run of the decorated `http_get` ends when it does not return a
response: `raised e` is an exception propagating directly out of an
attempt; `retryExhausted e` is the failure reported once
`stop_after_attempt(5)` stops a retryable error. -/
inductive Failure where
  | raised : FetchErr → Failure
  | retryExhausted : FetchErr → Failure
deriving DecidableEq

instance : DecidableEq (Except Failure Nat) := fun a b =>
  match a, b with
  | .ok x, .ok y => if h : x = y then isTrue (by rw [h]) else isFalse (by simp [h])
  | .error x, .error y =>
    if h : x = y then isTrue (by rw [h]) else isFalse (by simp [h])
  | .ok _, .error _ => isFalse (by simp)
  | .error _, .ok _ => isFalse (by simp)

/-- Trace of one call of the decorated `http_get`: its result, the number
of attempts made, and the waits slept between attempts. -/
structure RunTrace where
  result : Except Failure Nat
  attempts : Nat
  waits : List Nat
deriving DecidableEq

/-- The retry loop of the `tenacity` decorator (lines 181-182).  `fuel` is
only a structural-recursion bound; the initial value 5 with attempts
numbered from 1 never exhausts it. -/
def tenRun (transport : Nat → FetchOutcome) : Nat → Nat → List Nat → RunTrace
  | fuel, k, ws =>
    match httpAttempt transport k with
    | .ok s => ⟨.ok s, k, ws⟩
    | .error e =>
      if isHttpErr e then
        if k < 5 then
          match fuel with
          | 0 => ⟨.error (.raised e), k, ws⟩
          | f + 1 => tenRun transport f (k + 1) (ws ++ [waitExp k])
        else ⟨.error (.retryExhausted e), k, ws⟩
      else ⟨.error (.raised e), k, ws⟩

/-- Model of one call of `http_get` (lines 179-190). -/
def http_get_model (transport : Nat → FetchOutcome) : RunTrace :=
  tenRun transport 5 1 []

theorem httpAttempt_httpErr (transport : Nat → FetchOutcome) (k : Nat)
    (e : FetchErr) (he : httpAttempt transport k = .error e)
    (hh : isHttpErr e = true) :
    ∃ s, e = .httpError s ∧ 400 ≤ s := by
  unfold httpAttempt at he
  split at he
  · rename_i status heq
    split at he
    · rename_i h400
      injection he with he'
      exact ⟨status, he'.symm, h400⟩
    · exact absurd he (by simp)
  · injection he with he'
    rw [← he'] at hh
    simp [isHttpErr] at hh
  · injection he with he'
    rw [← he'] at hh
    simp [isHttpErr] at hh

theorem waitExp_bounds (k : Nat) : 1 ≤ waitExp k ∧ waitExp k ≤ 10 := by
  unfold waitExp
  omega

/-- Invariant of the retry loop, by induction on the remaining fuel. -/
theorem tenRun_spec (transport : Nat → FetchOutcome) :
    ∀ (fuel k : Nat) (ws : List Nat), 1 ≤ k → k ≤ 5 → fuel + k = 6 →
      ws = (List.range' 1 (k - 1)).map waitExp →
      (∀ j, 1 ≤ j → j < k →
        ∃ s, httpAttempt transport j = .error (.httpError s) ∧ 400 ≤ s) →
      (k ≤ (tenRun transport fuel k ws).attempts ∧
        (tenRun transport fuel k ws).attempts ≤ 5) ∧
      (∀ j, 1 ≤ j → j < (tenRun transport fuel k ws).attempts →
        ∃ s, httpAttempt transport j = .error (.httpError s) ∧ 400 ≤ s) ∧
      (∀ e, (tenRun transport fuel k ws).result = .error (.raised e) →
        isHttpErr e = false ∧
          httpAttempt transport (tenRun transport fuel k ws).attempts = .error e) ∧
      (∀ e, (tenRun transport fuel k ws).result = .error (.retryExhausted e) →
        (tenRun transport fuel k ws).attempts = 5 ∧ isHttpErr e = true) ∧
      (∀ s, (tenRun transport fuel k ws).result = .ok s →
        httpAttempt transport (tenRun transport fuel k ws).attempts = .ok s) ∧
      (tenRun transport fuel k ws).waits =
        (List.range' 1 ((tenRun transport fuel k ws).attempts - 1)).map waitExp := by
  intro fuel
  induction fuel with
  | zero =>
    intro k ws h1 h5 hfuel hws hprior
    omega
  | succ f ih =>
    intro k ws h1 h5 hfuel hws hprior
    show _ ∧ _ ∧ _ ∧ _ ∧ _ ∧ _
    rw [tenRun]
    rcases hatt : httpAttempt transport k with e | s
    · by_cases hh : isHttpErr e = true
      · by_cases hk5 : k < 5
        · simp only [hatt, hh, if_true, hk5]
          obtain ⟨s0, hs0, h400⟩ := httpAttempt_httpErr transport k e hatt hh
          have hws' : ws ++ [waitExp k] = (List.range' 1 (k + 1 - 1)).map waitExp := by
            rw [hws]
            have hk : k + 1 - 1 = (k - 1) + 1 := by omega
            rw [hk, List.range'_concat, List.map_append]
            have hk2 : 1 + (k - 1) = k := by omega
            simp [hk2]
          have hprior' : ∀ j, 1 ≤ j → j < k + 1 →
              ∃ s, httpAttempt transport j = .error (.httpError s) ∧ 400 ≤ s := by
            intro j hj1 hjk
            by_cases hjlt : j < k
            · exact hprior j hj1 hjlt
            · have : j = k := by omega
              subst this
              exact ⟨s0, by rw [hatt, hs0], h400⟩
          have := ih (k + 1) (ws ++ [waitExp k]) (by omega) (by omega) (by omega)
            hws' hprior'
          refine ⟨⟨by omega, this.1.2⟩, this.2.1, this.2.2.1, this.2.2.2.1,
            this.2.2.2.2.1, this.2.2.2.2.2⟩
        · have hk : k = 5 := by omega
          simp only [hatt, hh, if_true, hk5, if_false]
          refine ⟨⟨le_refl k, h5⟩, hprior, ?_, ?_, ?_, hws⟩
          · intro e' he'
            exact absurd he' (by simp)
          · intro e' he'
            simp only [Except.error.injEq, Failure.retryExhausted.injEq] at he'
            subst he'
            exact ⟨hk, hh⟩
          · intro s hs
            exact absurd hs (by simp)
      · have hh' : isHttpErr e = false := by
          cases hb : isHttpErr e
          · rfl
          · exact absurd hb hh
        simp only [hatt, hh', Bool.false_eq_true, if_false]
        refine ⟨⟨le_refl k, h5⟩, hprior, ?_, ?_, ?_, hws⟩
        · intro e' he'
          simp only [Except.error.injEq, Failure.raised.injEq] at he'
          subst he'
          exact ⟨hh', rfl⟩
        · intro e' he'
          exact absurd he' (by simp)
        · intro s hs
          exact absurd hs (by simp)
    · simp only [hatt]
      refine ⟨⟨le_refl k, h5⟩, hprior, ?_, ?_, ?_, hws⟩
      · intro e' he'
        exact absurd he' (by simp)
      · intro e' he'
        exact absurd he' (by simp)
      · intro s' hs'
        simp only [Except.ok.injEq] at hs'
        subst hs'
        rfl

/-- Transport whose first call fails at the network level and which would
succeed (status 200) from the second call on. -/
def netThenOkTransport : Nat → FetchOutcome :=
  fun k => if k = 1 then .netExc else .resp 200

/-- C4, counterexample: a network-level failure belongs to the claim's
transient class, so under the claim this call would be retried and succeed
on the second attempt; the code's retry predicate
`retry_if_exception_type(HttpError)` does not retry it, and the error
propagates after exactly one attempt with no backoff wait. -/
theorem c4_retry_counterexample :
    http_get_model netThenOkTransport =
      ⟨.error (.raised .netError), 1, []⟩ := by
  decide

/-- C4, amended: a failed attempt of `http_get` is retried if and only if
it raised `HttpError`, i.e. the response had status >= 400; network-level
failures and all other errors are not retried and propagate from the
attempt that raised them; at most 5 attempts are made, and the waits
slept between attempts follow `wait_exponential(multiplier=1, min=1,
max=10)` (so each wait is between 1 and 10 time-units). -/
theorem c4_retry_amended (transport : Nat → FetchOutcome) :
    (1 ≤ (http_get_model transport).attempts ∧
      (http_get_model transport).attempts ≤ 5) ∧
    (∀ j, 1 ≤ j → j < (http_get_model transport).attempts →
      ∃ s, httpAttempt transport j = .error (.httpError s) ∧ 400 ≤ s) ∧
    (∀ e, (http_get_model transport).result = .error (.raised e) →
      isHttpErr e = false ∧
        httpAttempt transport (http_get_model transport).attempts = .error e) ∧
    (∀ e, (http_get_model transport).result = .error (.retryExhausted e) →
      (http_get_model transport).attempts = 5 ∧ isHttpErr e = true) ∧
    (∀ s, (http_get_model transport).result = .ok s →
      httpAttempt transport (http_get_model transport).attempts = .ok s) ∧
    (http_get_model transport).waits =
      (List.range' 1 ((http_get_model transport).attempts - 1)).map waitExp ∧
    (∀ w ∈ (http_get_model transport).waits, 1 ≤ w ∧ w ≤ 10) := by
  have h := tenRun_spec transport 5 1 [] (le_refl 1) (by omega) (by omega)
    (by simp) (by intro j hj1 hj0; omega)
  refine ⟨h.1, h.2.1, h.2.2.1, h.2.2.2.1, h.2.2.2.2.1, h.2.2.2.2.2, ?_⟩
  intro w hw
  unfold http_get_model at hw
  rw [h.2.2.2.2.2] at hw
  obtain ⟨k, _, rfl⟩ := List.mem_map.mp hw
  exact waitExp_bounds k

/-- Transport that always answers with status 500. -/
def all500Transport : Nat → FetchOutcome := fun _ => .resp 500

/-- Witness for `c4_retry_amended`: against a permanently failing
transport the run makes at most 5 attempts, and a direct evaluation
confirms exactly 5 attempts with backoff waits 1, 2, 4, 8. -/
theorem c4_retry_amended_witness :
    (http_get_model all500Transport).attempts ≤ 5 ∧
      http_get_model all500Transport =
        ⟨.error (.retryExhausted (.httpError 500)), 5, [1, 2, 4, 8]⟩ := by
  refine ⟨(c4_retry_amended all500Transport).1.2, ?_⟩
  decide

/-! ## Documentation URL discovery (lines 196-266)

URLs, titles, paths and repository names are all modelled as `List Char`.
Calls into `requests`, `BeautifulSoup`, `xml.etree` and `uritools` are
oracle fields of a `World` value; `none` models a raised exception. -/

/-- The fixed allowlist of documentation-section path hints (lines 50-61). -/
def DOC_SECTION_HINTS : List (List Char) :=
  ["/introduction".toList, "/getting-started".toList, "/architecture".toList,
   "/category/components-and-services".toList, "/components".toList,
   "/sdks".toList, "/OpenAPI-clients".toList, "/spec".toList,
   "/appendix".toList, "/release-notes".toList]

/-- The well-known sitemap filename candidates (lines 41-48). -/
def SITEMAP_CANDIDATES : List (List Char) :=
  ["/sitemap.xml".toList, "/sitemap_index.xml".toList,
   "/sitemap-index.xml".toList, "/sitemap.xml.gz".toList,
   "/sitemap_index.xml.gz".toList, "/sitemap-index.xml.gz".toList]

/-- Substring containment: Python `h in u`. -/
def containsSub (pat : List Char) : List Char → Bool
  | [] => pat.isEmpty
  | c :: tail => pat.isPrefixOf (c :: tail) || containsSub pat tail

/-- Model of `_is_docs_url(u, base)` (lines 133-137): the URL starts with
the base and contains one of the documentation-section hints. -/
def isDocsUrl (u base : List Char) : Bool :=
  base.isPrefixOf u && DOC_SECTION_HINTS.any (fun h => containsSub h u)

/-- Python `str.splitlines()` restricted to the `\n` / `\r` / `\r\n`
terminators (sufficient for fetched robots.txt text); the text after the
last terminator forms a final line only when non-empty. -/
def splitLinesGo : List Char → List Char → List (List Char)
  | [], acc => if acc.isEmpty then [] else [acc.reverse]
  | '\r' :: '\n' :: rest, acc => acc.reverse :: splitLinesGo rest []
  | '\r' :: rest, acc => acc.reverse :: splitLinesGo rest []
  | '\n' :: rest, acc => acc.reverse :: splitLinesGo rest []
  | c :: rest, acc => splitLinesGo rest (c :: acc)

/-- ASCII lowercasing of a line, for the case-insensitive
`line.lower().startswith("sitemap:")` test (line 128). -/
def lowerStr (s : List Char) : List Char := s.map Char.toLower

/-- The text after the first colon: `line.split(":", 1)[1]` for a line
that is known to contain a colon (line 129). -/
def afterFirstColon (s : List Char) : List Char :=
  (s.dropWhile (fun c => !(c == ':'))).drop 1

/-- Model of `_extract_sitemap_urls_from_robots` applied to the fetched
robots.txt text (lines 126-131). -/
def robotsSitemaps (txt : List Char) : List (List Char) :=
  (splitLinesGo txt []).filterMap fun line =>
    if "sitemap:".toList.isPrefixOf (lowerStr line) then
      some (pyStrip (afterFirstColon line))
    else none

/-- Extracted content of one documentation page: the title and the text
blocks that `extract_doc_page` collects in document order (lines 298-302). -/
structure PageData where
  title : Option (List Char)
  blocks : List (List Char)
deriving DecidableEq

/-- One entry of a recursive repository-tree listing (lines 442-445). -/
structure TreeEntry where
  type : List Char
  path : List Char
  size : Nat
deriving DecidableEq

/-- One release object as read from the GitHub API (lines 507-511). -/
structure Release where
  name : Option (List Char)
  tag_name : Option (List Char)
  body : Option (List Char)
  html_url : Option (List Char)
  published_at : Option (List Char)
deriving DecidableEq

/-- Oracles for every call into external libraries and the network;
`none` models a raised exception. -/
structure World where
  /-- `_fetch_text` (lines 87-93), used for robots.txt. -/
  fetchText : List Char → Option (List Char)
  /-- `_fetch_and_parse_sitemap` (lines 108-118): fetch plus tolerant XML
  parsing; `some locs` is the list of `loc` element values (`some []` on a
  parse failure), `none` a raised fetch exception. -/
  sitemapLocs : List Char → Option (List (List Char))
  /-- `uritools.urijoin`. -/
  join : List Char → List Char → List Char
  /-- Fetch of one page during the BFS crawl plus extraction of its
  stripped-later anchor `href` attributes (lines 246-256). -/
  pageLinks : List Char → Option (List (List Char))
  /-- `extract_doc_page` up to the content assembly (lines 268-302). -/
  page : List Char → Option PageData
  /-- Pages of the `/orgs/.../repos` listing by page number, reduced to
  repository names (lines 324-333). -/
  orgRepoPages : Nat → Option (List (List Char))
  /-- `get_repo_license` (lines 335-342), already exception-tolerant. -/
  license : List Char → Option (List Char)
  /-- `get_default_branch_sha` plus `list_repo_tree` (lines 344-356): the
  head commit SHA and the recursive tree of one repository. -/
  repoMeta : List Char → Option (List Char × List TreeEntry)
  /-- `get_raw_file` (lines 358-365) for one (repository, path), already
  decoded; the per-file `try` at lines 461-464 maps its exceptions to
  `None`, so `none` covers both. -/
  raw : List Char → List Char → Option (List Char)
  /-- Pages of the releases listing of one repository (lines 500-505). -/
  releases : List Char → Nat → Option (List Release)

/-- Set-flavoured insertion: Python `found.add(loc)` on a set modelled as
a duplicate-free list in insertion order. -/
def insertIfAbsent (l : List (List Char)) (x : List Char) : List (List Char) :=
  if x ∈ l then l else l ++ [x]

/-- The nested-sitemap test of line 225. -/
def endsWithSitemapExt (loc : List Char) : Bool :=
  ".xml".toList.isSuffixOf loc || ".xml.gz".toList.isSuffixOf loc

/-- Processing of the `loc` values of one sitemap document
(lines 224-230): likely nested sitemaps are enqueued unless already
visited; allowlist-matching URLs join the result set. -/
def procLocs (base : List Char) (seen : List (List Char)) :
    List (List Char) → List (List Char) → List (List Char) →
    List (List Char) × List (List Char)
  | [], q, found => (q, found)
  | loc :: more, q, found =>
    if endsWithSitemapExt loc then
      procLocs base seen more (if loc ∈ seen then q else q ++ [loc]) found
    else if isDocsUrl loc base then
      procLocs base seen more q (insertIfAbsent found loc)
    else
      procLocs base seen more q found

/-- The sitemap work-queue loop (lines 213-230); the fuel only bounds the
structural recursion of the unbounded Python `while` loop. -/
def sitemapLoop (W : World) (base : List Char) :
    Nat → List (List Char) → List (List Char) → List (List Char) →
    List (List Char)
  | 0, _, _, found => found
  | _ + 1, [], _, found => found
  | fuel + 1, sm :: rest, seen, found =>
    if sm ∈ seen then sitemapLoop W base fuel rest seen found
    else
      match W.sitemapLocs sm with
      | none => sitemapLoop W base fuel rest (sm :: seen) found
      | some locs =>
        let qf := procLocs base (sm :: seen) locs rest found
        sitemapLoop W base fuel qf.1 (sm :: seen) qf.2

/-- Order-preserving deduplication: `list(dict.fromkeys(sm_urls))`
(line 213). -/
def dedupFirst : List (List Char) → List (List Char) → List (List Char)
  | [], _ => []
  | x :: rest, seen =>
    if x ∈ seen then dedupFirst rest seen else x :: dedupFirst rest (x :: seen)

/-- The initial sitemap candidate queue: robots.txt declarations followed
by the well-known filenames, deduplicated preserving order
(lines 206-213). -/
def initialSitemaps (W : World) (base : List Char) : List (List Char) :=
  let robots :=
    match W.fetchText (W.join base "/robots.txt".toList) with
    | none => []
    | some txt => robotsSitemaps txt
  dedupFirst (robots ++ SITEMAP_CANDIDATES.map (W.join base)) []

/-- All allowlist-matching URLs produced by the sitemap phase of
`discover_doc_urls` (lines 206-230). -/
def sitemapFound (W : World) (base : List Char) (fuel : Nat) : List (List Char) :=
  sitemapLoop W base fuel (initialSitemaps W base) [] []

/-- Processing of the anchors of one crawled page (lines 255-264). -/
def procHrefs (W : World) (base u : List Char) (visited : List (List Char)) :
    List (List Char) → List (List Char) → List (List Char)
  | [], dq => dq
  | href0 :: more, dq =>
    let href := pyStrip href0
    if "#".toList.isPrefixOf href then procHrefs W base u visited more dq
    else
      let full := if "http".toList.isPrefixOf href then href else W.join u href
      if isDocsUrl full base ∧ full ∉ visited then
        procHrefs W base u visited more (dq ++ [full])
      else procHrefs W base u visited more dq

/-- The fallback BFS crawl over the seed pages (lines 236-264). -/
def bfsLoop (W : World) (base : List Char) :
    Nat → List (List Char) → List (List Char) → List (List Char) →
    List (List Char)
  | 0, _, _, found => found
  | _ + 1, [], _, found => found
  | fuel + 1, u :: dq, visited, found =>
    if u ∈ visited then bfsLoop W base fuel dq visited found
    else
      match W.pageLinks u with
      | none => bfsLoop W base fuel dq (u :: visited) found
      | some hrefs =>
        let found2 := if isDocsUrl u base then insertIfAbsent found u else found
        bfsLoop W base fuel (procHrefs W base u (u :: visited) hrefs dq)
          (u :: visited) found2

/-- The BFS phase of `discover_doc_urls`, started from the seed paths
resolved against the base (lines 236-238). -/
def bfsFound (W : World) (base : List Char) (seeds : List (List Char))
    (fuel : Nat) : List (List Char) :=
  bfsLoop W base fuel (seeds.map (W.join base)) [] []

/-- Lexicographic comparison by code point: the order of Python `sorted`
on strings. -/
def strLeB : List Char → List Char → Bool
  | [], _ => true
  | _ :: _, [] => false
  | a :: as, b :: bs => if a = b then strLeB as bs else decide (a < b)

/-- The propositional form of `strLeB`. -/
def strLe (a b : List Char) : Prop := strLeB a b = true

instance : DecidableRel strLe := fun a b =>
  inferInstanceAs (Decidable (strLeB a b = true))

/-- Model of `discover_doc_urls(base, seeds)` (lines 196-266). -/
def discover_doc_urls (W : World) (base0 : List Char)
    (seeds : List (List Char)) (fuel : Nat) : List (List Char) :=
  let base := rstripSlash base0
  let found := sitemapFound W base fuel
  if found.isEmpty then List.insertionSort strLe (bfsFound W base seeds fuel)
  else List.insertionSort strLe found

instance : IsTotal (List Char) strLe := by
  constructor
  intro a b
  induction a generalizing b with
  | nil => left; rfl
  | cons x xs ih =>
    cases b with
    | nil => right; rfl
    | cons y ys =>
      by_cases hxy : x = y
      · subst hxy
        rcases ih ys with h | h
        · left
          show strLeB (x :: xs) (x :: ys) = true
          simp only [strLeB, if_pos rfl]
          exact h
        · right
          show strLeB (x :: ys) (x :: xs) = true
          simp only [strLeB, if_pos rfl]
          exact h
      · rcases lt_trichotomy x y with h | h | h
        · left
          show strLeB (x :: xs) (y :: ys) = true
          simp only [strLeB, if_neg hxy]
          exact decide_eq_true h
        · exact absurd h hxy
        · right
          show strLeB (y :: ys) (x :: xs) = true
          simp only [strLeB, if_neg (Ne.symm hxy)]
          exact decide_eq_true h

instance : IsTrans (List Char) strLe := by
  constructor
  intro a b c hab hbc
  induction a generalizing b c with
  | nil => rfl
  | cons x xs ih =>
    cases b with
    | nil => exact absurd hab (by simp [strLe, strLeB])
    | cons y ys =>
      cases c with
      | nil => exact absurd hbc (by simp [strLe, strLeB])
      | cons z zs =>
        show strLeB (x :: xs) (z :: zs) = true
        have hab' : strLeB (x :: xs) (y :: ys) = true := hab
        have hbc' : strLeB (y :: ys) (z :: zs) = true := hbc
        simp only [strLeB] at hab' hbc' ⊢
        by_cases hxy : x = y
        · subst hxy
          rw [if_pos rfl] at hab'
          by_cases hyz : x = z
          · subst hyz
            rw [if_pos rfl] at hbc' ⊢
            exact ih ys zs hab' hbc'
          · rw [if_neg hyz] at hbc' ⊢
            exact hbc'
        · rw [if_neg hxy] at hab'
          have hlt : x < y := of_decide_eq_true hab'
          by_cases hyz : y = z
          · subst hyz
            rw [if_neg hxy]
            exact hab'
          · rw [if_neg hyz] at hbc'
            have hlt2 : y < z := of_decide_eq_true hbc'
            have hxz : x < z := lt_trans hlt hlt2
            rw [if_neg (ne_of_lt hxz)]
            exact decide_eq_true hxz

theorem mem_insertIfAbsent (l : List (List Char)) (x u : List Char)
    (h : u ∈ insertIfAbsent l x) : u ∈ l ∨ u = x := by
  unfold insertIfAbsent at h
  split at h
  · exact Or.inl h
  · rcases List.mem_append.mp h with h | h
    · exact Or.inl h
    · exact Or.inr (List.mem_singleton.mp h)

theorem procLocs_found_docs (base : List Char) (seen : List (List Char)) :
    ∀ (locs q found : List (List Char)),
      (∀ u ∈ found, isDocsUrl u base = true) →
      ∀ u ∈ (procLocs base seen locs q found).2, isDocsUrl u base = true := by
  intro locs
  induction locs with
  | nil => intro q found h u hu; exact h u hu
  | cons loc more ih =>
    intro q found h u hu
    simp only [procLocs] at hu
    split at hu
    · exact ih _ found h u hu
    · split at hu
      · rename_i hdocs
        refine ih q _ ?_ u hu
        intro v hv
        rcases mem_insertIfAbsent found loc v hv with hv | rfl
        · exact h v hv
        · exact hdocs
      · exact ih q found h u hu

theorem sitemapLoop_found_docs (W : World) (base : List Char) :
    ∀ (fuel : Nat) (q seen found : List (List Char)),
      (∀ u ∈ found, isDocsUrl u base = true) →
      ∀ u ∈ sitemapLoop W base fuel q seen found, isDocsUrl u base = true := by
  intro fuel
  induction fuel with
  | zero => intro q seen found h u hu; exact h u hu
  | succ f ih =>
    intro q seen found h u hu
    cases q with
    | nil => exact h u hu
    | cons sm rest =>
      simp only [sitemapLoop] at hu
      split at hu
      · exact ih rest seen found h u hu
      · rcases hor : W.sitemapLocs sm with _ | locs
        · rw [hor] at hu
          exact ih rest _ found h u hu
        · rw [hor] at hu
          exact ih _ _ _
            (procLocs_found_docs base (sm :: seen) locs rest found h) u hu

theorem sitemapFound_docs (W : World) (base : List Char) (fuel : Nat) :
    ∀ u ∈ sitemapFound W base fuel, isDocsUrl u base = true :=
  sitemapLoop_found_docs W base fuel _ [] [] (by simp)

/-- C7: if the sitemap phase of `discover_doc_urls` (robots.txt-declared
sitemaps plus well-known candidates, with recursive sitemap-index
expansion) yields a non-empty set of allowlist-matching URLs, the function
returns exactly that set, sorted; if it yields zero matching URLs,
discovery falls through to the breadth-first fallback crawler over the
seed paths instead of returning the empty set. -/
theorem c7_discovery_sitemap_or_fallback (W : World) (base0 : List Char)
    (seeds : List (List Char)) (fuel : Nat) :
    (sitemapFound W (rstripSlash base0) fuel ≠ [] →
      (discover_doc_urls W base0 seeds fuel).Perm
          (sitemapFound W (rstripSlash base0) fuel) ∧
        (discover_doc_urls W base0 seeds fuel).Sorted strLe ∧
        ∀ u ∈ discover_doc_urls W base0 seeds fuel,
          isDocsUrl u (rstripSlash base0) = true) ∧
    (sitemapFound W (rstripSlash base0) fuel = [] →
      discover_doc_urls W base0 seeds fuel =
        List.insertionSort strLe (bfsFound W (rstripSlash base0) seeds fuel)) := by
  constructor
  · intro hne
    have heq : discover_doc_urls W base0 seeds fuel =
        List.insertionSort strLe (sitemapFound W (rstripSlash base0) fuel) := by
      unfold discover_doc_urls
      rw [if_neg (by simpa using hne)]
    refine ⟨?_, ?_, ?_⟩
    · rw [heq]
      exact List.perm_insertionSort _ _
    · rw [heq]
      exact List.sorted_insertionSort _ _
    · intro u hu
      rw [heq] at hu
      exact sitemapFound_docs W (rstripSlash base0) fuel u
        ((List.perm_insertionSort strLe _).mem_iff.mp hu)
  · intro hz
    unfold discover_doc_urls
    rw [if_pos (by simpa using hz)]

/-- A small concrete world for the fallback scenario: robots.txt declares
one sitemap whose single entry matches no documentation hint, and the
seed page itself is an allowlisted documentation page with no outgoing
links. -/
def fallbackWorld : World :=
  { fetchText := fun u =>
      if u = "https://x/robots.txt".toList then
        some "Sitemap: https://x/sm.xml".toList
      else none
    sitemapLocs := fun u =>
      if u = "https://x/sm.xml".toList then some ["https://x/other".toList]
      else none
    join := fun b p => b ++ p
    pageLinks := fun u =>
      if u = "https://x/introduction".toList then some [] else none
    page := fun _ => none
    orgRepoPages := fun _ => some []
    license := fun _ => none
    repoMeta := fun _ => none
    raw := fun _ _ => none
    releases := fun _ _ => some [] }

/-- Witness for `c7_discovery_sitemap_or_fallback`: in `fallbackWorld` the
robots-declared sitemap yields zero matching URLs, discovery falls through
to the BFS crawler, and the crawl finds the seed documentation page. -/
theorem c7_discovery_witness :
    discover_doc_urls fallbackWorld "https://x".toList
        ["/introduction".toList] 20 =
      List.insertionSort strLe
        (bfsFound fallbackWorld (rstripSlash "https://x".toList)
          ["/introduction".toList] 20) ∧
    discover_doc_urls fallbackWorld "https://x".toList
        ["/introduction".toList] 20 = ["https://x/introduction".toList] := by
  refine ⟨(c7_discovery_sitemap_or_fallback fallbackWorld "https://x".toList
      ["/introduction".toList] 20).2 (by decide), ?_⟩
  decide

/-! ## Record assembly: `build_corpus` (lines 380-559) -/

/-- Decimal digit character. -/
def digitChar (d : Nat) : Char := Char.ofNat (48 + d)

/-- Decimal numeral of a natural number, as interpolated by Python
f-strings.  The fuel only bounds the structural recursion; `n + 1` always
suffices. -/
def natDecimalGo : Nat → Nat → List Char
  | 0, _ => []
  | fuel + 1, n =>
    if n < 10 then [digitChar n]
    else natDecimalGo fuel (n / 10) ++ [digitChar (n % 10)]

/-- Decimal numeral of `n`. -/
def natDecimal (n : Nat) : List Char := natDecimalGo (n + 1) n

/-- `approx_tokens` (lines 69-71). -/
def approxTokens (text : List Char) : Nat := max 1 (text.length / 4)

/-- The configuration values consumed by `build_corpus`; the `or []` /
`or 800000` defaults of the Python code are folded into the field
values. -/
structure Config where
  docs_base : List Char
  doc_seeds : List (List Char)
  target_chars : Nat
  code_target_chars : Nat
  hard_max_chars : Nat
  min_chars : Nat
  github_org : List Char
  include_repos : List (List Char)
  exclude_repos : List (List Char)
  include_exts : List (List Char)
  max_file_bytes : Nat
  exclude_path_globs : List (List Char)
  releases_include_from : List (List Char)
  add_token_estimates : Bool
  add_hash : Bool

/-- One output record (lines 402-421, 473-492, 520-539).  The `hash`
field (an external `hashlib` SHA-256 digest), the `fetched_at` timestamp
and the `attribution` string are omitted: no claim refers to them and
they do not influence any other field. -/
structure Record where
  id : List Char
  source_type : List Char
  title : Option (List Char)
  section_ : Option (List Char)
  url : Option (List Char)
  repo : Option (List Char)
  path : Option (List Char)
  commit : Option (List Char)
  license : Option (List Char)
  version : Option (List Char)
  content : List Char
  content_type : List Char
  chunk_index : Nat
  chunk_count : Nat
  approx_tokens : Option Nat
deriving DecidableEq

/-- The record id of line 403. -/
def docsId (u : List Char) (idx : Nat) : List Char :=
  "docs::".toList ++ u ++ "::chunk-".toList ++ natDecimal (idx + 1)

/-- The record id of line 474 (with the 8-character SHA prefix). -/
def repoId (name path sha : List Char) (idx : Nat) : List Char :=
  "repo::".toList ++ name ++ "::".toList ++ path ++ "::".toList ++
    sha.take 8 ++ "::chunk-".toList ++ natDecimal (idx + 1)

/-- The record id of line 521. -/
def releaseId (rname relName : List Char) (idx : Nat) : List Char :=
  "release::".toList ++ rname ++ "::".toList ++ relName ++
    "::chunk-".toList ++ natDecimal (idx + 1)

/-- Record construction for the chunks of one parent document:
`for idx, ch in enumerate(chunks)`. -/
def enumChunks (mk : Nat → List Char → Record) : Nat → List (List Char) → List Record
  | _, [] => []
  | i, ch :: rest => mk i ch :: enumChunks mk (i + 1) rest

/-- The docs record of chunk `idx` of page `u` (lines 402-421). -/
def mkDocsRecord (cfg : Config) (u : List Char) (pg : PageData) (total : Nat)
    (idx : Nat) (ch : List Char) : Record :=
  { id := docsId u idx
    source_type := "docs".toList
    title := pg.title
    section_ := none
    url := some u
    repo := none
    path := none
    commit := none
    license := some "CC-BY-SA-4.0".toList
    version := none
    content := ch
    content_type := "text".toList
    chunk_index := idx
    chunk_count := total
    approx_tokens := if cfg.add_token_estimates then some (approxTokens ch) else none }

/-- Records contributed by one documentation URL (the loop body at lines
391-424); `[]` covers the short-content skip at lines 394-396 and any
exception caught at line 423. -/
def docsPage (W : World) (cfg : Config) (u : List Char) : List Record :=
  match W.page u with
  | none => []
  | some pg =>
    if (clean_text (joinBuf pg.blocks)).isEmpty ∨
        (clean_text (joinBuf pg.blocks)).length < 200 then []
    else
      match split_into_chunks (clean_text (joinBuf pg.blocks)) cfg.target_chars
          cfg.hard_max_chars cfg.min_chars with
      | none => []
      | some chunks => enumChunks (mkDocsRecord cfg u pg chunks.length) 0 chunks

/-- The documentation phase of `build_corpus` (lines 391-424). -/
def docsRecords (W : World) (cfg : Config) (urls : List (List Char)) :
    List Record :=
  urls.flatMap (docsPage W cfg)

/-- `os.path.basename(path)` for POSIX paths (line 476). -/
def pathBasename (path : List Char) : List Char :=
  (path.reverse.takeWhile (fun c => !(c == '/'))).reverse

/-- `os.path.splitext(path)[1]` (line 446): the extension of the
basename, empty when the basename has no dot after its leading dots. -/
def splitextExt (path : List Char) : List Char :=
  let core := (pathBasename path).dropWhile (fun c => c == '.')
  if core.any (fun c => c == '.') then
    '.' :: (core.reverse.takeWhile (fun c => !(c == '.'))).reverse
  else []

/-- The per-blob filters of the repository ingestor (lines 443-458):
non-blobs, excluded extensions, oversized files and glob-excluded paths
are skipped. -/
def keepEntry (cfg : Config) (e : TreeEntry) : Bool :=
  e.type == "blob".toList &&
  (cfg.include_exts.isEmpty ||
    cfg.include_exts.contains (lowerStr (splitextExt e.path))) &&
  (e.size == 0 || decide (e.size ≤ cfg.max_file_bytes)) &&
  !(cfg.exclude_path_globs.any fun pat => globMatch (globTokens pat) e.path)

/-- The repo record of chunk `idx` of one file (lines 473-492). -/
def mkRepoRecord (cfg : Config) (name path sha : List Char)
    (lic : Option (List Char)) (total : Nat) (idx : Nat) (ch : List Char) :
    Record :=
  { id := repoId name path sha idx
    source_type := "repo".toList
    title := some (pathBasename path)
    section_ := none
    url := none
    repo := some (cfg.github_org ++ "/".toList ++ name)
    path := some path
    commit := some sha
    license := lic
    version := none
    content := ch
    content_type :=
      if lowerStr (splitextExt path) = ".md".toList ∨
          lowerStr (splitextExt path) = ".mdx".toList then "markdown".toList
      else "code".toList
    chunk_index := idx
    chunk_count := total
    approx_tokens := if cfg.add_token_estimates then some (approxTokens ch) else none }

/-- The per-file loop of one repository (lines 442-493).  A `ValueError`
from the chunker (`none` from `split_into_chunks`) aborts the rest of
this repository's tree — the per-repository `try` of lines 438/494 —
while the records appended before it are kept. -/
def repoFiles (W : World) (cfg : Config) (name sha : List Char)
    (lic : Option (List Char)) : List TreeEntry → List Record
  | [] => []
  | e :: rest =>
    if keepEntry cfg e then
      match W.raw name e.path with
      | none => repoFiles W cfg name sha lic rest
      | some text0 =>
        if text0.isEmpty then repoFiles W cfg name sha lic rest
        else
          match split_into_chunks (clean_text text0) cfg.code_target_chars
              cfg.hard_max_chars cfg.min_chars with
          | none => []
          | some chunks =>
            enumChunks (mkRepoRecord cfg name e.path sha lic chunks.length)
                0 chunks ++ repoFiles W cfg name sha lic rest
    else repoFiles W cfg name sha lic rest

/-- Records of one repository (lines 437-495): license and head-commit
resolution, tree listing, then the per-file loop; a failure resolving the
branch, SHA or tree aborts this repository with no records. -/
def repoRecords (W : World) (cfg : Config) (name : List Char) : List Record :=
  match W.repoMeta name with
  | none => []
  | some meta => repoFiles W cfg name meta.1 (W.license name) meta.2

/-- `list_org_repos` (lines 324-333): paginate until an empty page.  A
fetch failure propagates out of `build_corpus` (line 428 is outside any
`try`), modelled as `none`; exhausted fuel — the Python loop still
running — is also `none`. -/
def listOrgRepos (W : World) : Nat → Nat → Option (List (List Char))
  | 0, _ => none
  | fuel + 1, page =>
    match W.orgRepoPages page with
    | none => none
    | some [] => some []
    | some items =>
      match listOrgRepos W fuel (page + 1) with
      | none => none
      | some more => some (items ++ more)

/-- The repository-name filter (lines 430-432): the include list — or the
full listing when the include list is empty — minus the exclude set. -/
def repoNames (cfg : Config) (listed : List (List Char)) : List (List Char) :=
  (if cfg.include_repos.isEmpty then listed else cfg.include_repos).filter
    (fun n => !(cfg.exclude_repos.contains n))

/-- Python `a or b` on optional strings, where `None` and the empty
string are falsy (lines 508-509). -/
def pyOrStr (a b : Option (List Char)) : Option (List Char) :=
  match a with
  | some s => if s.isEmpty then b else some s
  | none => b

/-- The resolved display name of a release: `rel.get("name") or
rel.get("tag_name")`, with the falsy skip of lines 512-513. -/
def resolvedName (rel : Release) : Option (List Char) :=
  match pyOrStr rel.name rel.tag_name with
  | none => none
  | some s => if s.isEmpty then none else some s

/-- Python `str(x)` on an optional string: `None` renders as `"None"`
(the `published_at` interpolation at line 514). -/
def pyStr : Option (List Char) → List Char
  | none => "None".toList
  | some s => s

/-- The synthesized release document of line 514. -/
def relText (nm : List Char) (rel : Release) : List Char :=
  "# ".toList ++ nm ++ "\n\nPublished: ".toList ++ pyStr rel.published_at ++
    "\n\n".toList ++ rel.body.getD []

/-- The release record of chunk `idx` (lines 520-539). -/
def mkRelRecord (cfg : Config) (rname nm : List Char) (rel : Release)
    (lic : Option (List Char)) (total : Nat) (idx : Nat) (ch : List Char) :
    Record :=
  { id := releaseId rname nm idx
    source_type := "release".toList
    title := some nm
    section_ := some rname
    url := rel.html_url
    repo := some (cfg.github_org ++ "/".toList ++ rname)
    path := none
    commit := none
    license := lic
    version := some nm
    content := ch
    content_type := "text".toList
    chunk_index := idx
    chunk_count := total
    approx_tokens := if cfg.add_token_estimates then some (approxTokens ch) else none }

/-- The per-release loop over one page of releases (lines 507-540); the
Bool flags a chunker `ValueError`, which aborts the enclosing
repository's release ingestion (the `try` of lines 498/542). -/
def relRecords (W : World) (cfg : Config) (rname : List Char) :
    List Release → List Record × Bool
  | [] => ([], false)
  | rel :: rest =>
    match resolvedName rel with
    | none => relRecords W cfg rname rest
    | some nm =>
      match split_into_chunks (relText nm rel) cfg.target_chars
          cfg.hard_max_chars cfg.min_chars with
      | none => ([], true)
      | some chunks =>
        let more := relRecords W cfg rname rest
        (enumChunks (mkRelRecord cfg rname nm rel (W.license rname)
            chunks.length) 0 chunks ++ more.1, more.2)

/-- The pagination loop over one repository's releases (lines 499-541);
a fetch failure or an abort keeps the records accumulated so far. -/
def releasePages (W : World) (cfg : Config) (rname : List Char) :
    Nat → Nat → List Record
  | 0, _ => []
  | fuel + 1, page =>
    match W.releases rname page with
    | none => []
    | some [] => []
    | some rels =>
      let rr := relRecords W cfg rname rels
      if rr.2 then rr.1 else rr.1 ++ releasePages W cfg rname fuel (page + 1)

/-- The release phase of `build_corpus` for one configured repository
(lines 498-543). -/
def releaseRecords (W : World) (cfg : Config) (fuel : Nat)
    (rname : List Char) : List Record :=
  releasePages W cfg rname fuel 1

/-- Model of `build_corpus` (lines 380-546): the ordered record list that
`write_jsonl` serialises — documentation records, then repository
records, then release records.  `none` models a run killed by an uncaught
exception while listing the organisation's repositories (line 428 has no
enclosing `try`). -/
def buildCorpus (W : World) (cfg : Config) (fuel : Nat) :
    Option (List Record) :=
  let urls := discover_doc_urls W cfg.docs_base cfg.doc_seeds fuel
  let docs := docsRecords W cfg urls
  match listOrgRepos W fuel 1 with
  | none => none
  | some listed =>
    let repos := (repoNames cfg listed).flatMap (repoRecords W cfg)
    let rels := cfg.releases_include_from.flatMap (releaseRecords W cfg fuel)
    some (docs ++ repos ++ rels)

/-! ### Decimal numerals and identifier injectivity -/

theorem digitChar_isDigit (d : Nat) (hd : d < 10) : (digitChar d).isDigit = true := by
  interval_cases d <;> decide

theorem natDecimalGo_digits :
    ∀ (fuel n : Nat), n < fuel → ∀ c ∈ natDecimalGo fuel n, c.isDigit = true := by
  intro fuel
  induction fuel with
  | zero => intro n hn; omega
  | succ f ih =>
    intro n hn c hc
    simp only [natDecimalGo] at hc
    split at hc
    · rcases List.mem_singleton.mp hc with rfl
      exact digitChar_isDigit n (by omega)
    · rcases List.mem_append.mp hc with h | h
      · exact ih (n / 10) (by omega) c h
      · rcases List.mem_singleton.mp h with rfl
        exact digitChar_isDigit (n % 10) (by omega)

theorem natDecimal_digits (n : Nat) : ∀ c ∈ natDecimal n, c.isDigit = true :=
  natDecimalGo_digits (n + 1) n (by omega)

/-- Digit value of a decimal digit character. -/
def charVal (c : Char) : Nat := c.toNat - 48

/-- Value of a decimal numeral, the left inverse used to show that
`natDecimal` is injective. -/
def decVal (s : List Char) : Nat := s.foldl (fun a c => a * 10 + charVal c) 0

theorem decVal_append_digit (s : List Char) (c : Char) :
    decVal (s ++ [c]) = decVal s * 10 + charVal c := by
  unfold decVal
  rw [List.foldl_append]
  rfl

theorem charVal_digitChar (d : Nat) (hd : d < 10) : charVal (digitChar d) = d := by
  interval_cases d <;> decide

theorem decVal_natDecimalGo :
    ∀ (fuel n : Nat), n < fuel → decVal (natDecimalGo fuel n) = n := by
  intro fuel
  induction fuel with
  | zero => intro n hn; omega
  | succ f ih =>
    intro n hn
    simp only [natDecimalGo]
    split
    · rename_i h10
      show decVal ([] ++ [digitChar n]) = n
      rw [decVal_append_digit]
      have := charVal_digitChar n h10
      simp [decVal]
      omega
    · rename_i h10
      rw [decVal_append_digit, ih (n / 10) (by omega),
        charVal_digitChar (n % 10) (by omega)]
      omega

theorem natDecimal_inj (m n : Nat) (h : natDecimal m = natDecimal n) : m = n := by
  have hm := decVal_natDecimalGo (m + 1) m (by omega)
  have hn := decVal_natDecimalGo (n + 1) n (by omega)
  unfold natDecimal at h
  rw [← hm, ← hn, h]

theorem takeWhile_append_not (p : Char → Bool) :
    ∀ (xs : List Char) (y : Char) (rest : List Char),
      (∀ c ∈ xs, p c = true) → p y = false →
      (xs ++ y :: rest).takeWhile p = xs := by
  intro xs
  induction xs with
  | nil => intro y rest _ hy; simp [List.takeWhile_cons, hy]
  | cons x xs ih =>
    intro y rest hall hy
    rw [List.cons_append, List.takeWhile_cons,
      if_pos (hall x (List.mem_cons_self _ _)),
      ih y rest (fun c hc => hall c (List.mem_cons_of_mem _ hc)) hy]

theorem rev_chunk_shape (a d : List Char) :
    (a ++ ("::chunk-".toList ++ d)).reverse =
      d.reverse ++ ('-' :: ("knuhc::".toList ++ a.reverse)) := by
  have hS : ("::chunk-".toList).reverse = '-' :: "knuhc::".toList := by decide
  simp [List.reverse_append, hS]

/-- Injectivity of the trailing `::chunk-<decimal>` id suffix: the digits
and the part before the suffix are both recovered, whatever characters the
prefix contains. -/
theorem chunk_suffix_inj (a b : List Char) (m n : Nat)
    (h : a ++ ("::chunk-".toList ++ natDecimal m) =
      b ++ ("::chunk-".toList ++ natDecimal n)) :
    a = b ∧ m = n := by
  have hrev : (natDecimal m).reverse ++ ('-' :: ("knuhc::".toList ++ a.reverse)) =
      (natDecimal n).reverse ++ ('-' :: ("knuhc::".toList ++ b.reverse)) := by
    rw [← rev_chunk_shape, ← rev_chunk_shape, h]
  have ht1 := takeWhile_append_not Char.isDigit (natDecimal m).reverse '-'
    ("knuhc::".toList ++ a.reverse)
    (fun c hc => natDecimal_digits m c (List.mem_reverse.mp hc)) (by decide)
  have ht2 := takeWhile_append_not Char.isDigit (natDecimal n).reverse '-'
    ("knuhc::".toList ++ b.reverse)
    (fun c hc => natDecimal_digits n c (List.mem_reverse.mp hc)) (by decide)
  have hdd : (natDecimal m).reverse = (natDecimal n).reverse := by
    rw [← ht1, ← ht2, hrev]
  have hmn : m = n := natDecimal_inj m n (List.reverse_injective hdd)
  subst hmn
  refine ⟨?_, rfl⟩
  have h' : (a ++ "::chunk-".toList) ++ natDecimal m =
      (b ++ "::chunk-".toList) ++ natDecimal m := by
    rw [List.append_assoc, List.append_assoc]
    exact h
  exact List.append_cancel_right (List.append_cancel_right h')

/-- Colon-freeness of an identifier component. -/
def colonFree (s : List Char) : Prop := ∀ c ∈ s, c ≠ ':'

instance (s : List Char) : Decidable (colonFree s) :=
  inferInstanceAs (Decidable (∀ c ∈ s, c ≠ ':'))

/-- Injectivity of a `::`-separated id segment whose component contains no
colon. -/
theorem colon_component_inj (a b r s : List Char)
    (ha : colonFree a) (hb : colonFree b)
    (h : a ++ ':' :: ':' :: r = b ++ ':' :: ':' :: s) :
    a = b ∧ r = s := by
  have ha' : ∀ c ∈ a, (fun c => !(c == ':')) c = true := by
    intro c hc; simpa using ha c hc
  have hb' : ∀ c ∈ b, (fun c => !(c == ':')) c = true := by
    intro c hc; simpa using hb c hc
  have ht1 := takeWhile_append_not (fun c => !(c == ':')) a ':' (':' :: r) ha'
    (by decide)
  have ht2 := takeWhile_append_not (fun c => !(c == ':')) b ':' (':' :: s) hb'
    (by decide)
  have hab : a = b := by rw [← ht1, ← ht2, h]
  subst hab
  have := List.append_cancel_left h
  simp only [List.cons.injEq, true_and] at this
  exact ⟨rfl, this⟩

theorem colon2_cons (z : List Char) : "::".toList ++ z = ':' :: ':' :: z := rfl

theorem docsId_inj (u v : List Char) (i j : Nat) (h : docsId u i = docsId v j) :
    u = v ∧ i = j := by
  unfold docsId at h
  have h' : ("docs::".toList ++ u) ++ ("::chunk-".toList ++ natDecimal (i + 1)) =
      ("docs::".toList ++ v) ++ ("::chunk-".toList ++ natDecimal (j + 1)) := by
    simpa [List.append_assoc] using h
  obtain ⟨h1, h2⟩ := chunk_suffix_inj _ _ _ _ h'
  exact ⟨List.append_cancel_left h1, by omega⟩

theorem repoId_inj (n1 p1 s1 n2 p2 s2 : List Char) (i j : Nat)
    (hn1 : colonFree n1) (hn2 : colonFree n2)
    (hp1 : colonFree p1) (hp2 : colonFree p2)
    (h : repoId n1 p1 s1 i = repoId n2 p2 s2 j) :
    n1 = n2 ∧ p1 = p2 ∧ i = j := by
  unfold repoId at h
  simp only [colon2_cons, List.append_assoc, List.cons_append] at h
  have h0 : "repo::".toList ++ (n1 ++ ':' :: ':' ::
        (p1 ++ ':' :: ':' :: (s1.take 8 ++ ("::chunk-".toList ++ natDecimal (i + 1))))) =
      "repo::".toList ++ (n2 ++ ':' :: ':' ::
        (p2 ++ ':' :: ':' :: (s2.take 8 ++ ("::chunk-".toList ++ natDecimal (j + 1))))) := by
    simpa [List.append_assoc] using h
  have h1 := List.append_cancel_left h0
  obtain ⟨hn, h2⟩ := colon_component_inj _ _ _ _ hn1 hn2 h1
  obtain ⟨hp, h3⟩ := colon_component_inj _ _ _ _ hp1 hp2 h2
  obtain ⟨_, hij⟩ := chunk_suffix_inj _ _ _ _ h3
  exact ⟨hn, hp, by omega⟩

theorem releaseId_inj (r1 m1 r2 m2 : List Char) (i j : Nat)
    (hr1 : colonFree r1) (hr2 : colonFree r2)
    (h : releaseId r1 m1 i = releaseId r2 m2 j) :
    r1 = r2 ∧ m1 = m2 ∧ i = j := by
  unfold releaseId at h
  simp only [colon2_cons, List.append_assoc, List.cons_append] at h
  have h0 : "release::".toList ++ (r1 ++ ':' :: ':' ::
        (m1 ++ ("::chunk-".toList ++ natDecimal (i + 1)))) =
      "release::".toList ++ (r2 ++ ':' :: ':' ::
        (m2 ++ ("::chunk-".toList ++ natDecimal (j + 1)))) := by
    simpa [List.append_assoc] using h
  have h1 := List.append_cancel_left h0
  obtain ⟨hr, h2⟩ := colon_component_inj _ _ _ _ hr1 hr2 h1
  have h2' : m1 ++ ("::chunk-".toList ++ natDecimal (i + 1)) =
      m2 ++ ("::chunk-".toList ++ natDecimal (j + 1)) := h2
  obtain ⟨hm, hij⟩ := chunk_suffix_inj _ _ _ _ h2'
  exact ⟨hr, hm, by omega⟩

/-- Same-locator repo ids with distinct chunk ordinals are distinct, with
no assumption on the components. -/
theorem repoId_idx_inj (n p s : List Char) (i j : Nat)
    (h : repoId n p s i = repoId n p s j) : i = j := by
  unfold repoId at h
  have h' : ((("repo::".toList ++ n) ++ "::".toList ++ p ++ "::".toList ++ s.take 8)) ++
      ("::chunk-".toList ++ natDecimal (i + 1)) =
      ((("repo::".toList ++ n) ++ "::".toList ++ p ++ "::".toList ++ s.take 8)) ++
      ("::chunk-".toList ++ natDecimal (j + 1)) := by
    simpa [List.append_assoc] using h
  obtain ⟨_, hij⟩ := chunk_suffix_inj _ _ _ _ h'
  omega

theorem releaseId_idx_inj (r m : List Char) (i j : Nat)
    (h : releaseId r m i = releaseId r m j) : i = j := by
  unfold releaseId at h
  have h' : (("release::".toList ++ r) ++ "::".toList ++ m) ++
      ("::chunk-".toList ++ natDecimal (i + 1)) =
      (("release::".toList ++ r) ++ "::".toList ++ m) ++
      ("::chunk-".toList ++ natDecimal (j + 1)) := by
    simpa [List.append_assoc] using h
  obtain ⟨_, hij⟩ := chunk_suffix_inj _ _ _ _ h'
  omega

theorem take1_docsId (u : List Char) (i : Nat) : (docsId u i).take 1 = ['d'] := rfl

theorem take1_repoId (n p s : List Char) (j : Nat) :
    (repoId n p s j).take 1 = ['r'] := rfl

theorem take1_releaseId (r m : List Char) (j : Nat) :
    (releaseId r m j).take 1 = ['r'] := rfl

theorem take4_repoId (n p s : List Char) (j : Nat) :
    (repoId n p s j).take 4 = "repo".toList := rfl

theorem take4_releaseId (r m : List Char) (j : Nat) :
    (releaseId r m j).take 4 = "rele".toList := rfl

theorem docsId_ne_repoId (u : List Char) (i : Nat) (n p s : List Char) (j : Nat) :
    docsId u i ≠ repoId n p s j := by
  intro h
  have h4 : (docsId u i).take 1 = (repoId n p s j).take 1 := by rw [h]
  rw [take1_docsId, take1_repoId] at h4
  exact absurd h4 (by decide)

theorem docsId_ne_releaseId (u : List Char) (i : Nat) (r m : List Char) (j : Nat) :
    docsId u i ≠ releaseId r m j := by
  intro h
  have h4 : (docsId u i).take 1 = (releaseId r m j).take 1 := by rw [h]
  rw [take1_docsId, take1_releaseId] at h4
  exact absurd h4 (by decide)

theorem repoId_ne_releaseId (n p s : List Char) (i : Nat) (r m : List Char) (j : Nat) :
    repoId n p s i ≠ releaseId r m j := by
  intro h
  have h4 : (repoId n p s i).take 4 = (releaseId r m j).take 4 := by rw [h]
  rw [take4_repoId, take4_releaseId] at h4
  exact absurd h4 (by decide)

/-! ### The docs phase skips short pages (C10) -/

theorem mem_enumChunks (mk : Nat → List Char → Record) :
    ∀ (chunks : List (List Char)) (i : Nat) (r : Record),
      r ∈ enumChunks mk i chunks → ∃ j ch, r = mk j ch := by
  intro chunks
  induction chunks with
  | nil => intro i r hr; simp [enumChunks] at hr
  | cons ch rest ih =>
    intro i r hr
    rcases List.mem_cons.mp hr with rfl | hr
    · exact ⟨i, ch, rfl⟩
    · exact ih (i + 1) r hr

theorem docsPage_eq_some (W : World) (cfg : Config) (u : List Char)
    (pg : PageData) (h : W.page u = some pg) :
    docsPage W cfg u =
      if (clean_text (joinBuf pg.blocks)).isEmpty = true ∨
          (clean_text (joinBuf pg.blocks)).length < 200 then []
      else
        match split_into_chunks (clean_text (joinBuf pg.blocks)) cfg.target_chars
            cfg.hard_max_chars cfg.min_chars with
        | none => []
        | some chunks => enumChunks (mkDocsRecord cfg u pg chunks.length) 0 chunks := by
  unfold docsPage
  rw [h]

theorem docsPage_url (W : World) (cfg : Config) (u : List Char) :
    ∀ r ∈ docsPage W cfg u, r.url = some u := by
  intro r hr
  unfold docsPage at hr
  split at hr
  · simp at hr
  · split at hr
    · simp at hr
    · split at hr
      · simp at hr
      · obtain ⟨j, ch, rfl⟩ := mem_enumChunks _ _ _ _ hr
        rfl

/-- C10: a discovered documentation page whose extracted, normalised
content is empty or shorter than 200 characters contributes no record at
all (the silent `continue` of lines 394-396): the docs phase of
`build_corpus` contains no record whose `url` field names such a page. -/
theorem c10_short_page_no_records (W : World) (cfg : Config)
    (urls : List (List Char)) (u : List Char) (pg : PageData)
    (hpage : W.page u = some pg)
    (hshort : (clean_text (joinBuf pg.blocks)).length < 200) :
    (docsRecords W cfg urls).filter (fun r => r.url == some u) = [] := by
  unfold docsRecords
  induction urls with
  | nil => rfl
  | cons v rest ih =>
    rw [List.flatMap_cons, List.filter_append, ih, List.append_nil]
    by_cases hvu : v = u
    · subst hvu
      have hempty : docsPage W cfg v = [] := by
        rw [docsPage_eq_some W cfg v pg hpage, if_pos (Or.inr hshort)]
      rw [hempty]
      rfl
    · refine List.filter_eq_nil_iff.mpr ?_
      intro r hr
      have hru := docsPage_url W cfg v r hr
      simp [hru, hvu]

/-- Config used by the concrete witness scenarios. -/
def exampleCfg : Config :=
  { docs_base := "https://x".toList
    doc_seeds := []
    target_chars := 1000
    code_target_chars := 10
    hard_max_chars := 10
    min_chars := 0
    github_org := "opentdf".toList
    include_repos := ["r1".toList, "r2".toList]
    exclude_repos := []
    include_exts := []
    max_file_bytes := 800000
    exclude_path_globs := []
    releases_include_from := []
    add_token_estimates := false
    add_hash := false }

/-- World for the C10 witness: one documentation page whose normalised
content is 5 characters long. -/
def shortPageWorld : World :=
  { fetchText := fun _ => none
    sitemapLocs := fun _ => none
    join := fun b p => b ++ p
    pageLinks := fun _ => none
    page := fun u =>
      if u = "https://x/introduction".toList then
        some { title := none, blocks := ["short".toList] }
      else none
    orgRepoPages := fun _ => some []
    license := fun _ => none
    repoMeta := fun _ => none
    raw := fun _ _ => none
    releases := fun _ _ => some [] }

/-- Witness for `c10_short_page_no_records` at a concrete short page. -/
theorem c10_short_page_no_records_witness :
    (docsRecords shortPageWorld exampleCfg
        ["https://x/introduction".toList]).filter
      (fun r => r.url == some "https://x/introduction".toList) = [] :=
  c10_short_page_no_records shortPageWorld exampleCfg
    ["https://x/introduction".toList] "https://x/introduction".toList
    { title := none, blocks := ["short".toList] } (by decide) (by decide)

/-! ### Record id uniqueness (C3) -/

/-- The resolved display names of one page of releases, in order
(lines 507-513). -/
def relNamesOf : List Release → List (List Char)
  | [] => []
  | rel :: rest =>
    match resolvedName rel with
    | none => relNamesOf rest
    | some nm => nm :: relNamesOf rest

/-- Every resolved release name one repository's release pagination can
ingest, in pagination order (lines 499-513). -/
def relNamePool (W : World) (rname : List Char) : Nat → Nat → List (List Char)
  | 0, _ => []
  | fuel + 1, page =>
    match W.releases rname page with
    | none => []
    | some [] => []
    | some rels => relNamesOf rels ++ relNamePool W rname fuel (page + 1)

theorem mem_toList_of_eq_some {β : Type} (o : Option β) (v : β)
    (h : o = some v) : v ∈ o.toList := by
  rw [h]
  exact List.mem_singleton.mpr rfl

theorem enumChunks_map_id (f : Nat → List Char) (mk : Nat → List Char → Record)
    (hmk : ∀ i ch, (mk i ch).id = f i) :
    ∀ (chunks : List (List Char)) (i : Nat),
      (enumChunks mk i chunks).map Record.id =
        (List.range' i chunks.length).map f := by
  intro chunks
  induction chunks with
  | nil => intro i; rfl
  | cons ch rest ih =>
    intro i
    have h1 : enumChunks mk i (ch :: rest) =
        mk i ch :: enumChunks mk (i + 1) rest := rfl
    rw [h1, List.map_cons, hmk, List.length_cons, List.range'_succ,
      List.map_cons, ih (i + 1)]

theorem docsPage_map_id (W : World) (cfg : Config) (u : List Char) :
    ∃ k, (docsPage W cfg u).map Record.id =
      (List.range' 0 k).map fun i => docsId u i := by
  cases hpg : W.page u with
  | none =>
    refine ⟨0, ?_⟩
    unfold docsPage
    rw [hpg]
    rfl
  | some pg =>
    rw [docsPage_eq_some W cfg u pg hpg]
    by_cases hc : (clean_text (joinBuf pg.blocks)).isEmpty = true ∨
        (clean_text (joinBuf pg.blocks)).length < 200
    · refine ⟨0, ?_⟩
      rw [if_pos hc]
      rfl
    · rw [if_neg hc]
      cases hch : split_into_chunks (clean_text (joinBuf pg.blocks))
          cfg.target_chars cfg.hard_max_chars cfg.min_chars with
      | none => exact ⟨0, rfl⟩
      | some chunks =>
        exact ⟨chunks.length,
          enumChunks_map_id (fun i => docsId u i)
            (mkDocsRecord cfg u pg chunks.length) (fun i ch => rfl) chunks 0⟩

/-- The shared distinctness core: pairwise-distinct parent components with
per-parent chunk counts yield pairwise-distinct ids whenever the id
builder separates components and chunk ordinals. -/
theorem nodup_pairs_flatMap {α : Type} (g : α → Nat → List Char)
    (pairs : List (α × Nat))
    (hfst : (pairs.map Prod.fst).Nodup)
    (hinj1 : ∀ pr ∈ pairs, ∀ pr' ∈ pairs, ∀ i j,
      g pr.1 i = g pr'.1 j → pr.1 = pr'.1)
    (hinj2 : ∀ pr ∈ pairs, ∀ i j, g pr.1 i = g pr.1 j → i = j) :
    (pairs.flatMap fun pr => (List.range' 0 pr.2).map (g pr.1)).Nodup := by
  rw [List.nodup_flatMap]
  constructor
  · intro pr hpr
    exact (List.nodup_range' 0 pr.2).map_on fun i _ j _ h => hinj2 pr hpr i j h
  · have hp : pairs.Pairwise fun a b => a.1 ≠ b.1 := List.pairwise_map.mp hfst
    refine List.Pairwise.imp_of_mem ?_ hp
    intro a b ha hb hne x hxa hxb
    obtain ⟨i, _, hi⟩ := List.mem_map.mp hxa
    obtain ⟨j, _, hj⟩ := List.mem_map.mp hxb
    exact hne (hinj1 a ha b hb i j (hi.trans hj.symm))

theorem colonFree_of_mem_paths (entries : List TreeEntry)
    (hall : ∀ e ∈ entries, colonFree e.path) (p : List Char)
    (hp : p ∈ entries.map TreeEntry.path) : colonFree p := by
  obtain ⟨e, he, rfl⟩ := List.mem_map.mp hp
  exact hall e he

theorem repoFiles_cons_eq (W : World) (cfg : Config) (n sha : List Char)
    (lic : Option (List Char)) (e : TreeEntry) (rest : List TreeEntry) :
    repoFiles W cfg n sha lic (e :: rest) =
      if keepEntry cfg e = true then
        match W.raw n e.path with
        | none => repoFiles W cfg n sha lic rest
        | some text0 =>
          if text0.isEmpty = true then repoFiles W cfg n sha lic rest
          else
            match split_into_chunks (clean_text text0) cfg.code_target_chars
                cfg.hard_max_chars cfg.min_chars with
            | none => []
            | some chunks =>
              enumChunks (mkRepoRecord cfg n e.path sha lic chunks.length)
                  0 chunks ++ repoFiles W cfg n sha lic rest
      else repoFiles W cfg n sha lic rest := rfl

theorem repoFiles_cons_not_kept (W : World) (cfg : Config) (n sha : List Char)
    (lic : Option (List Char)) (e : TreeEntry) (rest : List TreeEntry)
    (hk : ¬ keepEntry cfg e = true) :
    repoFiles W cfg n sha lic (e :: rest) = repoFiles W cfg n sha lic rest := by
  rw [repoFiles_cons_eq W cfg n sha lic e rest, if_neg hk]

theorem repoFiles_cons_raw_none (W : World) (cfg : Config) (n sha : List Char)
    (lic : Option (List Char)) (e : TreeEntry) (rest : List TreeEntry)
    (hk : keepEntry cfg e = true) (hraw : W.raw n e.path = none) :
    repoFiles W cfg n sha lic (e :: rest) = repoFiles W cfg n sha lic rest := by
  rw [repoFiles_cons_eq W cfg n sha lic e rest, if_pos hk, hraw]

theorem repoFiles_cons_raw_some (W : World) (cfg : Config) (n sha : List Char)
    (lic : Option (List Char)) (e : TreeEntry) (rest : List TreeEntry)
    (hk : keepEntry cfg e = true) (text0 : List Char)
    (hraw : W.raw n e.path = some text0) :
    repoFiles W cfg n sha lic (e :: rest) =
      if text0.isEmpty = true then repoFiles W cfg n sha lic rest
      else
        match split_into_chunks (clean_text text0) cfg.code_target_chars
            cfg.hard_max_chars cfg.min_chars with
        | none => []
        | some chunks =>
          enumChunks (mkRepoRecord cfg n e.path sha lic chunks.length)
              0 chunks ++ repoFiles W cfg n sha lic rest := by
  rw [repoFiles_cons_eq W cfg n sha lic e rest, if_pos hk, hraw]

theorem relNamesOf_cons_eq (rel : Release) (rest : List Release) :
    relNamesOf (rel :: rest) =
      (match resolvedName rel with
      | none => relNamesOf rest
      | some nm => nm :: relNamesOf rest) := rfl

theorem relNamesOf_cons_none (rel : Release) (rest : List Release)
    (hnm : resolvedName rel = none) :
    relNamesOf (rel :: rest) = relNamesOf rest := by
  rw [relNamesOf_cons_eq rel rest, hnm]

theorem relNamesOf_cons_some (rel : Release) (rest : List Release)
    (nm : List Char) (hnm : resolvedName rel = some nm) :
    relNamesOf (rel :: rest) = nm :: relNamesOf rest := by
  rw [relNamesOf_cons_eq rel rest, hnm]

theorem relRecords_cons_eq (W : World) (cfg : Config) (rname : List Char)
    (rel : Release) (rest : List Release) :
    relRecords W cfg rname (rel :: rest) =
      (match resolvedName rel with
      | none => relRecords W cfg rname rest
      | some nm =>
        match split_into_chunks (relText nm rel) cfg.target_chars
            cfg.hard_max_chars cfg.min_chars with
        | none => ([], true)
        | some chunks =>
          (enumChunks (mkRelRecord cfg rname nm rel (W.license rname)
              chunks.length) 0 chunks ++ (relRecords W cfg rname rest).1,
            (relRecords W cfg rname rest).2)) := rfl

theorem relRecords_cons_none (W : World) (cfg : Config) (rname : List Char)
    (rel : Release) (rest : List Release) (hnm : resolvedName rel = none) :
    relRecords W cfg rname (rel :: rest) = relRecords W cfg rname rest := by
  rw [relRecords_cons_eq W cfg rname rel rest, hnm]

theorem relRecords_cons_some (W : World) (cfg : Config) (rname : List Char)
    (rel : Release) (rest : List Release) (nm : List Char)
    (hnm : resolvedName rel = some nm) :
    relRecords W cfg rname (rel :: rest) =
      match split_into_chunks (relText nm rel) cfg.target_chars
          cfg.hard_max_chars cfg.min_chars with
      | none => ([], true)
      | some chunks =>
        (enumChunks (mkRelRecord cfg rname nm rel (W.license rname)
            chunks.length) 0 chunks ++ (relRecords W cfg rname rest).1,
          (relRecords W cfg rname rest).2) := by
  rw [relRecords_cons_eq W cfg rname rel rest, hnm]

theorem releasePages_succ_eq (W : World) (cfg : Config) (rname : List Char)
    (f page : Nat) :
    releasePages W cfg rname (f + 1) page =
      (match W.releases rname page with
      | none => []
      | some [] => []
      | some rels =>
        if (relRecords W cfg rname rels).2 = true
          then (relRecords W cfg rname rels).1
          else (relRecords W cfg rname rels).1 ++
            releasePages W cfg rname f (page + 1)) := rfl

theorem releasePages_eq_none (W : World) (cfg : Config) (rname : List Char)
    (f page : Nat) (h : W.releases rname page = none) :
    releasePages W cfg rname (f + 1) page = [] := by
  rw [releasePages_succ_eq W cfg rname f page, h]

theorem releasePages_eq_nil (W : World) (cfg : Config) (rname : List Char)
    (f page : Nat) (h : W.releases rname page = some []) :
    releasePages W cfg rname (f + 1) page = [] := by
  rw [releasePages_succ_eq W cfg rname f page, h]

theorem releasePages_eq_cons (W : World) (cfg : Config) (rname : List Char)
    (f page : Nat) (rel : Release) (rrest : List Release)
    (h : W.releases rname page = some (rel :: rrest)) :
    releasePages W cfg rname (f + 1) page =
      if (relRecords W cfg rname (rel :: rrest)).2 = true
        then (relRecords W cfg rname (rel :: rrest)).1
        else (relRecords W cfg rname (rel :: rrest)).1 ++
          releasePages W cfg rname f (page + 1) := by
  rw [releasePages_succ_eq W cfg rname f page, h]

theorem relNamePool_succ_eq (W : World) (rname : List Char) (f page : Nat) :
    relNamePool W rname (f + 1) page =
      (match W.releases rname page with
      | none => []
      | some [] => []
      | some rels => relNamesOf rels ++ relNamePool W rname f (page + 1)) := rfl

theorem relNamePool_eq_none (W : World) (rname : List Char) (f page : Nat)
    (h : W.releases rname page = none) :
    relNamePool W rname (f + 1) page = [] := by
  rw [relNamePool_succ_eq W rname f page, h]

theorem relNamePool_eq_nil (W : World) (rname : List Char) (f page : Nat)
    (h : W.releases rname page = some []) :
    relNamePool W rname (f + 1) page = [] := by
  rw [relNamePool_succ_eq W rname f page, h]

theorem relNamePool_eq_cons (W : World) (rname : List Char) (f page : Nat)
    (rel : Release) (rrest : List Release)
    (h : W.releases rname page = some (rel :: rrest)) :
    relNamePool W rname (f + 1) page =
      relNamesOf (rel :: rrest) ++ relNamePool W rname f (page + 1) := by
  rw [relNamePool_succ_eq W rname f page, h]

theorem repoFiles_map_id (W : World) (cfg : Config) (n sha : List Char)
    (lic : Option (List Char)) :
    ∀ entries : List TreeEntry,
      ∃ pairs : List (List Char × Nat),
        (pairs.map Prod.fst).Sublist (entries.map TreeEntry.path) ∧
        (repoFiles W cfg n sha lic entries).map Record.id =
          pairs.flatMap fun pr =>
            (List.range' 0 pr.2).map fun i => repoId n pr.1 sha i := by
  intro entries
  induction entries with
  | nil => exact ⟨[], List.nil_sublist _, rfl⟩
  | cons e rest ih =>
    obtain ⟨pairs, hsub, heq⟩ := ih
    by_cases hk : keepEntry cfg e = true
    · cases hraw : W.raw n e.path with
      | none =>
        refine ⟨pairs, hsub.cons e.path, ?_⟩
        rw [repoFiles_cons_raw_none W cfg n sha lic e rest hk hraw, heq]
      | some text0 =>
        by_cases hemp : text0.isEmpty = true
        · refine ⟨pairs, hsub.cons e.path, ?_⟩
          rw [repoFiles_cons_raw_some W cfg n sha lic e rest hk text0 hraw,
            if_pos hemp, heq]
        · cases hch : split_into_chunks (clean_text text0) cfg.code_target_chars
              cfg.hard_max_chars cfg.min_chars with
          | none =>
            refine ⟨[], List.nil_sublist _, ?_⟩
            have hids : repoFiles W cfg n sha lic (e :: rest) = [] := by
              rw [repoFiles_cons_raw_some W cfg n sha lic e rest hk text0 hraw,
                if_neg hemp, hch]
            rw [hids]
            rfl
          | some chunks =>
            refine ⟨(e.path, chunks.length) :: pairs, hsub.cons₂ e.path, ?_⟩
            have hids : repoFiles W cfg n sha lic (e :: rest) =
                enumChunks (mkRepoRecord cfg n e.path sha lic chunks.length)
                    0 chunks ++ repoFiles W cfg n sha lic rest := by
              rw [repoFiles_cons_raw_some W cfg n sha lic e rest hk text0 hraw,
                if_neg hemp, hch]
            rw [hids, List.map_append, heq, List.flatMap_cons]
            congr 1
            exact enumChunks_map_id (fun i => repoId n e.path sha i)
              (mkRepoRecord cfg n e.path sha lic chunks.length)
              (fun i ch => rfl) chunks 0
    · refine ⟨pairs, hsub.cons e.path, ?_⟩
      rw [repoFiles_cons_not_kept W cfg n sha lic e rest hk, heq]

theorem relRecords_map_id (W : World) (cfg : Config) (rname : List Char) :
    ∀ rels : List Release,
      ∃ pairs : List (List Char × Nat),
        (pairs.map Prod.fst).Sublist (relNamesOf rels) ∧
        (relRecords W cfg rname rels).1.map Record.id =
          pairs.flatMap fun pr =>
            (List.range' 0 pr.2).map fun i => releaseId rname pr.1 i := by
  intro rels
  induction rels with
  | nil => exact ⟨[], List.nil_sublist _, rfl⟩
  | cons rel rest ih =>
    obtain ⟨pairs, hsub, heq⟩ := ih
    cases hnm : resolvedName rel with
    | none =>
      refine ⟨pairs, ?_, ?_⟩
      · rw [relNamesOf_cons_none rel rest hnm]
        exact hsub
      · rw [relRecords_cons_none W cfg rname rel rest hnm, heq]
    | some nm =>
      cases hch : split_into_chunks (relText nm rel) cfg.target_chars
          cfg.hard_max_chars cfg.min_chars with
      | none =>
        refine ⟨[], List.nil_sublist _, ?_⟩
        have hids : relRecords W cfg rname (rel :: rest) = ([], true) := by
          rw [relRecords_cons_some W cfg rname rel rest nm hnm, hch]
        rw [hids]
        rfl
      | some chunks =>
        refine ⟨(nm, chunks.length) :: pairs, ?_, ?_⟩
        · rw [relNamesOf_cons_some rel rest nm hnm]
          exact hsub.cons₂ nm
        · have hids : relRecords W cfg rname (rel :: rest) =
              (enumChunks (mkRelRecord cfg rname nm rel (W.license rname)
                  chunks.length) 0 chunks ++ (relRecords W cfg rname rest).1,
                (relRecords W cfg rname rest).2) := by
            rw [relRecords_cons_some W cfg rname rel rest nm hnm, hch]
          rw [hids, List.map_append, heq, List.flatMap_cons]
          congr 1
          exact enumChunks_map_id (fun i => releaseId rname nm i)
            (mkRelRecord cfg rname nm rel (W.license rname) chunks.length)
            (fun i ch => rfl) chunks 0

theorem releasePages_map_id (W : World) (cfg : Config) (rname : List Char) :
    ∀ fuel page : Nat,
      ∃ pairs : List (List Char × Nat),
        (pairs.map Prod.fst).Sublist (relNamePool W rname fuel page) ∧
        (releasePages W cfg rname fuel page).map Record.id =
          pairs.flatMap fun pr =>
            (List.range' 0 pr.2).map fun i => releaseId rname pr.1 i := by
  intro fuel
  induction fuel with
  | zero => intro page; exact ⟨[], List.nil_sublist _, rfl⟩
  | succ f ih =>
    intro page
    rcases hrel : W.releases rname page with _ | rels
    · refine ⟨[], List.nil_sublist _, ?_⟩
      rw [releasePages_eq_none W cfg rname f page hrel]
      rfl
    · cases rels with
      | nil =>
        refine ⟨[], List.nil_sublist _, ?_⟩
        rw [releasePages_eq_nil W cfg rname f page hrel]
        rfl
      | cons rel rrest =>
        obtain ⟨p1, hs1, he1⟩ := relRecords_map_id W cfg rname (rel :: rrest)
        by_cases hab : (relRecords W cfg rname (rel :: rrest)).2 = true
        · refine ⟨p1, ?_, ?_⟩
          · rw [relNamePool_eq_cons W rname f page rel rrest hrel]
            exact hs1.trans (List.sublist_append_left _ _)
          · rw [releasePages_eq_cons W cfg rname f page rel rrest hrel,
              if_pos hab]
            exact he1
        · obtain ⟨p2, hs2, he2⟩ := ih (page + 1)
          refine ⟨p1 ++ p2, ?_, ?_⟩
          · rw [relNamePool_eq_cons W rname f page rel rrest hrel,
              List.map_append]
            exact hs1.append hs2
          · rw [releasePages_eq_cons W cfg rname f page rel rrest hrel,
              if_neg hab, List.map_append, he1, he2, List.flatMap_append]

theorem docsRecords_id_shape (W : World) (cfg : Config)
    (urls : List (List Char)) :
    ∀ x ∈ (docsRecords W cfg urls).map Record.id, ∃ u i, x = docsId u i := by
  intro x hx
  unfold docsRecords at hx
  rw [List.map_flatMap] at hx
  obtain ⟨u, _, hxu⟩ := List.mem_flatMap.mp hx
  obtain ⟨k, hk⟩ := docsPage_map_id W cfg u
  have hxu' : x ∈ (docsPage W cfg u).map Record.id := hxu
  rw [hk] at hxu'
  obtain ⟨i, _, hi⟩ := List.mem_map.mp hxu'
  exact ⟨u, i, hi.symm⟩

theorem repoRecords_id_shape (W : World) (cfg : Config) (n : List Char) :
    ∀ x ∈ (repoRecords W cfg n).map Record.id,
      ∃ meta, W.repoMeta n = some meta ∧
        ∃ p, p ∈ meta.2.map TreeEntry.path ∧ ∃ i, x = repoId n p meta.1 i := by
  intro x hx
  unfold repoRecords at hx
  cases hmeta : W.repoMeta n with
  | none =>
    rw [hmeta] at hx
    exact absurd hx (List.not_mem_nil x)
  | some meta =>
    rw [hmeta] at hx
    have hx' : x ∈ (repoFiles W cfg n meta.1 (W.license n) meta.2).map
        Record.id := hx
    obtain ⟨pairs, hsub, heq⟩ :=
      repoFiles_map_id W cfg n meta.1 (W.license n) meta.2
    rw [heq] at hx'
    obtain ⟨pr, hpr, hxpr⟩ := List.mem_flatMap.mp hx'
    obtain ⟨i, _, hi⟩ := List.mem_map.mp hxpr
    exact ⟨meta, rfl, pr.1, hsub.subset (List.mem_map_of_mem Prod.fst hpr),
      i, hi.symm⟩

theorem releaseRecords_id_shape (W : World) (cfg : Config) (fuel : Nat)
    (rn : List Char) :
    ∀ x ∈ (releaseRecords W cfg fuel rn).map Record.id,
      ∃ nm i, x = releaseId rn nm i := by
  intro x hx
  unfold releaseRecords at hx
  obtain ⟨pairs, _, heq⟩ := releasePages_map_id W cfg rn fuel 1
  rw [heq] at hx
  obtain ⟨pr, _, hxpr⟩ := List.mem_flatMap.mp hx
  obtain ⟨i, _, hi⟩ := List.mem_map.mp hxpr
  exact ⟨pr.1, i, hi.symm⟩

theorem repoPhase_id_shape (W : World) (cfg : Config)
    (names : List (List Char)) :
    ∀ x ∈ (names.flatMap (repoRecords W cfg)).map Record.id,
      ∃ n p s i, x = repoId n p s i := by
  intro x hx
  rw [List.map_flatMap] at hx
  obtain ⟨n, _, hxn⟩ := List.mem_flatMap.mp hx
  obtain ⟨meta, _, p, _, i, hxeq⟩ := repoRecords_id_shape W cfg n x hxn
  exact ⟨n, p, meta.1, i, hxeq⟩

theorem releasePhase_id_shape (W : World) (cfg : Config) (fuel : Nat)
    (names : List (List Char)) :
    ∀ x ∈ (names.flatMap (releaseRecords W cfg fuel)).map Record.id,
      ∃ rn nm i, x = releaseId rn nm i := by
  intro x hx
  rw [List.map_flatMap] at hx
  obtain ⟨rn, _, hxn⟩ := List.mem_flatMap.mp hx
  obtain ⟨nm, i, hxeq⟩ := releaseRecords_id_shape W cfg fuel rn x hxn
  exact ⟨rn, nm, i, hxeq⟩

theorem insertIfAbsent_nodup (l : List (List Char)) (x : List Char)
    (h : l.Nodup) : (insertIfAbsent l x).Nodup := by
  unfold insertIfAbsent
  split
  · exact h
  · rename_i hx
    rw [List.nodup_append]
    refine ⟨h, List.nodup_singleton x, ?_⟩
    intro a ha hax
    rw [List.mem_singleton.mp hax] at ha
    exact hx ha

theorem procLocs_nodup (base : List Char) (seen : List (List Char)) :
    ∀ (locs q found : List (List Char)), found.Nodup →
      (procLocs base seen locs q found).2.Nodup := by
  intro locs
  induction locs with
  | nil => intro q found h; exact h
  | cons loc more ih =>
    intro q found h
    simp only [procLocs]
    split
    · exact ih _ found h
    · split
      · exact ih q _ (insertIfAbsent_nodup found loc h)
      · exact ih q found h

theorem sitemapLoop_nodup (W : World) (base : List Char) :
    ∀ (fuel : Nat) (q seen found : List (List Char)), found.Nodup →
      (sitemapLoop W base fuel q seen found).Nodup := by
  intro fuel
  induction fuel with
  | zero => intro q seen found h; exact h
  | succ f ih =>
    intro q seen found h
    cases q with
    | nil => exact h
    | cons sm rest =>
      simp only [sitemapLoop]
      split
      · exact ih rest seen found h
      · rcases hor : W.sitemapLocs sm with _ | locs
        · exact ih rest _ found h
        · exact ih _ _ _ (procLocs_nodup base (sm :: seen) locs rest found h)

theorem bfsLoop_nodup (W : World) (base : List Char) :
    ∀ (fuel : Nat) (dq visited found : List (List Char)), found.Nodup →
      (bfsLoop W base fuel dq visited found).Nodup := by
  intro fuel
  induction fuel with
  | zero => intro dq visited found h; exact h
  | succ f ih =>
    intro dq visited found h
    cases dq with
    | nil => exact h
    | cons u dq' =>
      simp only [bfsLoop]
      split
      · exact ih dq' visited found h
      · rcases hor : W.pageLinks u with _ | hrefs
        · exact ih dq' _ found h
        · refine ih _ _ _ ?_
          split
          · exact insertIfAbsent_nodup found u h
          · exact h

theorem sitemapFound_nodup (W : World) (base : List Char) (fuel : Nat) :
    (sitemapFound W base fuel).Nodup :=
  sitemapLoop_nodup W base fuel (initialSitemaps W base) [] [] List.nodup_nil

theorem bfsFound_nodup (W : World) (base : List Char)
    (seeds : List (List Char)) (fuel : Nat) :
    (bfsFound W base seeds fuel).Nodup :=
  bfsLoop_nodup W base fuel (seeds.map (W.join base)) [] [] List.nodup_nil

theorem discover_nodup (W : World) (base0 : List Char)
    (seeds : List (List Char)) (fuel : Nat) :
    (discover_doc_urls W base0 seeds fuel).Nodup := by
  unfold discover_doc_urls
  show (if (sitemapFound W (rstripSlash base0) fuel).isEmpty = true
      then List.insertionSort strLe (bfsFound W (rstripSlash base0) seeds fuel)
      else List.insertionSort strLe
        (sitemapFound W (rstripSlash base0) fuel)).Nodup
  split
  · exact ((List.perm_insertionSort strLe _).nodup_iff).mpr
      (bfsFound_nodup W (rstripSlash base0) seeds fuel)
  · exact ((List.perm_insertionSort strLe _).nodup_iff).mpr
      (sitemapFound_nodup W (rstripSlash base0) fuel)

theorem docsRecords_ids_nodup (W : World) (cfg : Config)
    (urls : List (List Char)) (hu : urls.Nodup) :
    ((docsRecords W cfg urls).map Record.id).Nodup := by
  unfold docsRecords
  rw [List.map_flatMap, List.nodup_flatMap]
  constructor
  · intro u _
    show ((docsPage W cfg u).map Record.id).Nodup
    obtain ⟨k, hk⟩ := docsPage_map_id W cfg u
    rw [hk]
    exact (List.nodup_range' 0 k).map_on fun i _ j _ h => (docsId_inj u u i j h).2
  · refine List.Pairwise.imp_of_mem ?_ hu
    intro u v _ _ hne x hxu hxv
    have hxu' : x ∈ (docsPage W cfg u).map Record.id := hxu
    have hxv' : x ∈ (docsPage W cfg v).map Record.id := hxv
    obtain ⟨ku, hku⟩ := docsPage_map_id W cfg u
    obtain ⟨kv, hkv⟩ := docsPage_map_id W cfg v
    rw [hku] at hxu'
    rw [hkv] at hxv'
    obtain ⟨i, _, hi⟩ := List.mem_map.mp hxu'
    obtain ⟨j, _, hj⟩ := List.mem_map.mp hxv'
    exact hne (docsId_inj u v i j (hi.trans hj.symm)).1

theorem repoRecords_ids_nodup (W : World) (cfg : Config) (n : List Char)
    (hn : colonFree n)
    (hmeta : ∀ meta ∈ (W.repoMeta n).toList,
      (meta.2.map TreeEntry.path).Nodup ∧ ∀ e ∈ meta.2, colonFree e.path) :
    ((repoRecords W cfg n).map Record.id).Nodup := by
  unfold repoRecords
  cases hm : W.repoMeta n with
  | none => exact List.nodup_nil
  | some meta =>
    have hmeta' := hmeta meta (mem_toList_of_eq_some _ _ hm)
    show ((repoFiles W cfg n meta.1 (W.license n) meta.2).map Record.id).Nodup
    obtain ⟨pairs, hsub, heq⟩ :=
      repoFiles_map_id W cfg n meta.1 (W.license n) meta.2
    rw [heq]
    apply nodup_pairs_flatMap (fun p i => repoId n p meta.1 i) pairs
    · exact hsub.nodup hmeta'.1
    · intro pr hpr pr' hpr' i j hid
      have hcp : colonFree pr.1 := colonFree_of_mem_paths meta.2 hmeta'.2 pr.1
        (hsub.subset (List.mem_map_of_mem Prod.fst hpr))
      have hcp' : colonFree pr'.1 := colonFree_of_mem_paths meta.2 hmeta'.2 pr'.1
        (hsub.subset (List.mem_map_of_mem Prod.fst hpr'))
      exact (repoId_inj n pr.1 meta.1 n pr'.1 meta.1 i j hn hn hcp hcp' hid).2.1
    · intro pr _ i j hid
      exact repoId_idx_inj n pr.1 meta.1 i j hid

theorem releaseRecords_ids_nodup (W : World) (cfg : Config) (fuel : Nat)
    (rn : List Char) (hrn : colonFree rn)
    (hpool : (relNamePool W rn fuel 1).Nodup) :
    ((releaseRecords W cfg fuel rn).map Record.id).Nodup := by
  unfold releaseRecords
  obtain ⟨pairs, hsub, heq⟩ := releasePages_map_id W cfg rn fuel 1
  rw [heq]
  apply nodup_pairs_flatMap (fun nm i => releaseId rn nm i) pairs
  · exact hsub.nodup hpool
  · intro pr _ pr' _ i j hid
    exact (releaseId_inj rn pr.1 rn pr'.1 i j hrn hrn hid).2.1
  · intro pr _ i j hid
    exact releaseId_idx_inj rn pr.1 i j hid

theorem repoPhase_ids_nodup (W : World) (cfg : Config)
    (names : List (List Char)) (hnd : names.Nodup)
    (hcf : ∀ n ∈ names, colonFree n ∧
      ∀ meta ∈ (W.repoMeta n).toList,
        (meta.2.map TreeEntry.path).Nodup ∧ ∀ e ∈ meta.2, colonFree e.path) :
    ((names.flatMap (repoRecords W cfg)).map Record.id).Nodup := by
  rw [List.map_flatMap, List.nodup_flatMap]
  constructor
  · intro n hn
    show ((repoRecords W cfg n).map Record.id).Nodup
    exact repoRecords_ids_nodup W cfg n (hcf n hn).1 (hcf n hn).2
  · refine List.Pairwise.imp_of_mem ?_ hnd
    intro a b ha hb hne x hxa hxb
    have hxa' : x ∈ (repoRecords W cfg a).map Record.id := hxa
    have hxb' : x ∈ (repoRecords W cfg b).map Record.id := hxb
    obtain ⟨ma, hma, p, hp, i, hxeq⟩ := repoRecords_id_shape W cfg a x hxa'
    obtain ⟨mb, hmb, q, hq, j, hyeq⟩ := repoRecords_id_shape W cfg b x hxb'
    have hmaT := (hcf a ha).2 ma (mem_toList_of_eq_some _ _ hma)
    have hmbT := (hcf b hb).2 mb (mem_toList_of_eq_some _ _ hmb)
    have hcp : colonFree p := colonFree_of_mem_paths ma.2 hmaT.2 p hp
    have hcq : colonFree q := colonFree_of_mem_paths mb.2 hmbT.2 q hq
    exact hne (repoId_inj a p ma.1 b q mb.1 i j (hcf a ha).1 (hcf b hb).1
      hcp hcq (hxeq.symm.trans hyeq)).1

theorem releasePhase_ids_nodup (W : World) (cfg : Config) (fuel : Nat)
    (names : List (List Char)) (hnd : names.Nodup)
    (hcf : ∀ rn ∈ names, colonFree rn ∧ (relNamePool W rn fuel 1).Nodup) :
    ((names.flatMap (releaseRecords W cfg fuel)).map Record.id).Nodup := by
  rw [List.map_flatMap, List.nodup_flatMap]
  constructor
  · intro rn hrn
    show ((releaseRecords W cfg fuel rn).map Record.id).Nodup
    exact releaseRecords_ids_nodup W cfg fuel rn (hcf rn hrn).1 (hcf rn hrn).2
  · refine List.Pairwise.imp_of_mem ?_ hnd
    intro a b ha hb hne x hxa hxb
    have hxa' : x ∈ (releaseRecords W cfg fuel a).map Record.id := hxa
    have hxb' : x ∈ (releaseRecords W cfg fuel b).map Record.id := hxb
    obtain ⟨ma, ia, hxeq⟩ := releaseRecords_id_shape W cfg fuel a x hxa'
    obtain ⟨mb, ib, hyeq⟩ := releaseRecords_id_shape W cfg fuel b x hxb'
    exact hne (releaseId_inj a ma b mb ia ib (hcf a ha).1 (hcf b hb).1
      (hxeq.symm.trans hyeq)).1

/-- Configuration for the duplicate-release-name scenario: the release
ingestion is enabled for repository `r`, all other phases are idle. -/
def dupCfg : Config :=
  { docs_base := "https://x".toList
    doc_seeds := []
    target_chars := 1000
    code_target_chars := 1000
    hard_max_chars := 1200
    min_chars := 100
    github_org := "opentdf".toList
    include_repos := []
    exclude_repos := []
    include_exts := []
    max_file_bytes := 800000
    exclude_path_globs := []
    releases_include_from := ["r".toList]
    add_token_estimates := false
    add_hash := false }

/-- A release named `v1` with tag `tagA`. -/
def dupRelA : Release :=
  { name := some "v1".toList, tag_name := some "tagA".toList, body := none
    html_url := none, published_at := none }

/-- A second, distinct release also named `v1`, with tag `tagB`. -/
def dupRelB : Release :=
  { name := some "v1".toList, tag_name := some "tagB".toList, body := none
    html_url := none, published_at := none }

/-- World in which repository `r` has two releases that resolve to the
same display name. -/
def dupReleaseWorld : World :=
  { fetchText := fun _ => none
    sitemapLocs := fun _ => none
    join := fun b p => b ++ p
    pageLinks := fun _ => none
    page := fun _ => none
    orgRepoPages := fun _ => some []
    license := fun _ => none
    repoMeta := fun _ => none
    raw := fun _ _ => none
    releases := fun _ p => if p = 1 then some [dupRelA, dupRelB] else some [] }

/-- C3 counterexample: `build_corpus` can emit the same id twice.  Two
releases of repository `r` both carry the name `v1` and differ only in
their tag; the release id of line 521 is derived from the repository, the
resolved display name and the chunk ordinal alone, so both releases
produce the id `release::r::v1::chunk-1` and the corpus ids are not
pairwise distinct. -/
theorem c3_id_uniqueness_counterexample :
    (buildCorpus dupReleaseWorld dupCfg 5).map (fun rs => rs.map Record.id) =
        some ["release::r::v1::chunk-1".toList,
          "release::r::v1::chunk-1".toList] ∧
      ¬ (["release::r::v1::chunk-1".toList,
          "release::r::v1::chunk-1".toList] : List (List Char)).Nodup :=
  ⟨by decide, by decide⟩

/-- C3 (amended): in a completed run of `build_corpus` the `id` field is
pairwise distinct across the whole corpus, provided the filtered
repository list is duplicate-free with colon-free names, every ingested
tree lists duplicate-free, colon-free blob paths, and the repositories
configured for release ingestion are duplicate-free and colon-free with no
two releases of any one of them resolving to the same display name.  The
documentation ids need no side condition: the discovered URL list is
always duplicate-free. -/
theorem c3_id_uniqueness_amended (W : World) (cfg : Config) (fuel : Nat)
    (recs : List Record)
    (hrun : buildCorpus W cfg fuel = some recs)
    (hrepo : ∀ listed ∈ (listOrgRepos W fuel 1).toList,
      (repoNames cfg listed).Nodup ∧
      ∀ n ∈ repoNames cfg listed, colonFree n ∧
        ∀ meta ∈ (W.repoMeta n).toList,
          (meta.2.map TreeEntry.path).Nodup ∧ ∀ e ∈ meta.2, colonFree e.path)
    (hrel : cfg.releases_include_from.Nodup ∧
      ∀ rn ∈ cfg.releases_include_from, colonFree rn ∧
        (relNamePool W rn fuel 1).Nodup) :
    (recs.map Record.id).Nodup := by
  unfold buildCorpus at hrun
  cases hlist : listOrgRepos W fuel 1 with
  | none =>
    rw [hlist] at hrun
    exact Option.noConfusion
      (show (none : Option (List Record)) = some recs from hrun)
  | some listed =>
    rw [hlist] at hrun
    have hrec :
        docsRecords W cfg (discover_doc_urls W cfg.docs_base cfg.doc_seeds fuel) ++
            (repoNames cfg listed).flatMap (repoRecords W cfg) ++
            cfg.releases_include_from.flatMap (releaseRecords W cfg fuel) =
          recs := Option.some.inj hrun
    subst hrec
    have hrepo' := hrepo listed (mem_toList_of_eq_some _ _ hlist)
    rw [List.map_append, List.map_append, List.nodup_append, List.nodup_append]
    refine ⟨⟨?_, ?_, ?_⟩, ?_, ?_⟩
    · exact docsRecords_ids_nodup W cfg _
        (discover_nodup W cfg.docs_base cfg.doc_seeds fuel)
    · exact repoPhase_ids_nodup W cfg _ hrepo'.1 hrepo'.2
    · intro x hxd hxr
      obtain ⟨u, i, rfl⟩ := docsRecords_id_shape W cfg _ x hxd
      obtain ⟨n, p, s, j, heq⟩ := repoPhase_id_shape W cfg _ _ hxr
      exact docsId_ne_repoId u i n p s j heq
    · exact releasePhase_ids_nodup W cfg fuel _ hrel.1 hrel.2
    · intro x hx hxrel
      rcases List.mem_append.mp hx with hxd | hxm
      · obtain ⟨u, i, rfl⟩ := docsRecords_id_shape W cfg _ x hxd
        obtain ⟨rn, nm, j, heq⟩ := releasePhase_id_shape W cfg fuel _ _ hxrel
        exact docsId_ne_releaseId u i rn nm j heq
      · obtain ⟨n, p, s, i, rfl⟩ := repoPhase_id_shape W cfg _ x hxm
        obtain ⟨rn, nm, j, heq⟩ := releasePhase_id_shape W cfg fuel _ _ hxrel
        exact repoId_ne_releaseId n p s i rn nm j heq

/-- World for the C3 witness: two repositories `r1` and `r2`, each a tree
with a single `README.md` blob whose content splits into two chunks. -/
def twoRepoWorld : World :=
  { fetchText := fun _ => none
    sitemapLocs := fun _ => none
    join := fun b p => b ++ p
    pageLinks := fun _ => none
    page := fun _ => none
    orgRepoPages := fun _ => some []
    license := fun _ => none
    repoMeta := fun n =>
      if n = "r1".toList then
        some ("1111111111".toList,
          [{ type := "blob".toList, path := "README.md".toList, size := 18 }])
      else if n = "r2".toList then
        some ("2222222222".toList,
          [{ type := "blob".toList, path := "README.md".toList, size := 18 }])
      else none
    raw := fun _ p =>
      if p = "README.md".toList then some "aaaaaaaa\n\nbbbbbbbb".toList
      else none
    releases := fun _ _ => some [] }

/-- Witness for `c3_id_uniqueness_amended`: two repositories, each with a
`README.md` split into 2 chunks, yield four pairwise distinct ids. -/
theorem c3_id_uniqueness_amended_witness :
    buildCorpus twoRepoWorld exampleCfg 5 =
        some ((buildCorpus twoRepoWorld exampleCfg 5).getD []) ∧
      ((buildCorpus twoRepoWorld exampleCfg 5).getD []).map Record.id =
        ["repo::r1::README.md::11111111::chunk-1".toList,
          "repo::r1::README.md::11111111::chunk-2".toList,
          "repo::r2::README.md::22222222::chunk-1".toList,
          "repo::r2::README.md::22222222::chunk-2".toList] ∧
      (((buildCorpus twoRepoWorld exampleCfg 5).getD []).map Record.id).Nodup :=
  ⟨by decide, by decide,
    c3_id_uniqueness_amended twoRepoWorld exampleCfg 5
      ((buildCorpus twoRepoWorld exampleCfg 5).getD [])
      (by decide) (by decide) (by decide)⟩

end OpenTDFCorpus
